import Mathlib

/-!
Shallow embedding of the Turkish cipher word-guessing game engine
(`src/web/src/lib/cipher.ts`, current version of the module) together with
proofs about its guess/hint/reveal/difficulty logic.

Strings are modelled as `List Char`.  JavaScript `Set<number>` becomes
`Finset ℕ`, `Map<string, number>` becomes an association list
`List (Char × ℕ)` (insertion order preserved, lookup by key), and
`Map<string, Set<number>>` becomes `List (List Char × Finset ℕ)`.

Randomness is passed explicitly: a `Math.random()` draw becomes a rational
parameter in `[0,1)`, and an array shuffle (`sort(() => Math.random() - 0.5)`
or Fisher–Yates) becomes either an explicit swap loop over the supplied
draws or an opaque shuffling function assumed (where relevant) to return a
permutation of its input, which is what a JavaScript `Array.sort` comparator
shuffle always does.

The sentence corpus, the `gameSettings.json` difficulty configuration and
the wall clock are external inputs of the module; they are threaded in as
parameters.
-/

namespace CipherGame

/-- The difficulty tiers of the game. -/
inductive Difficulty
  | easy
  | medium
  | hard
deriving DecidableEq, Repr

/-- The two hint strengths of the hint engine. -/
inductive HintStrength
  | strong
  | weak
deriving DecidableEq, Repr

/-- JavaScript `toUpperCase()` restricted to the characters that occur in the
game's Turkish text: ASCII lowercase letters map to ASCII uppercase
(in particular `i → I`), the six lowercase Turkish letters map to their
uppercase forms (`ı → I`), every other character is returned unchanged. -/
def jsUpperChar (c : Char) : Char :=
  if 'a' ≤ c ∧ c ≤ 'z' then Char.ofNat (c.toNat - 32)
  else if c = 'ç' then 'Ç'
  else if c = 'ğ' then 'Ğ'
  else if c = 'ı' then 'I'
  else if c = 'ö' then 'Ö'
  else if c = 'ş' then 'Ş'
  else if c = 'ü' then 'Ü'
  else c

/-- JavaScript `toLocaleUpperCase('tr-TR')` restricted to the characters of
the game's text: like `jsUpperChar` except that `i` maps to `İ`. -/
def trUpperChar (c : Char) : Char :=
  if c = 'i' then 'İ' else jsUpperChar c

/-- The character-level content of `normalizeForProcessing`'s replacement
chain: dotted/dotless i variants fold to `I`, and `Ğ/ğ Ü/ü Ş/ş Ö/ö Ç/ç`
fold to their ASCII look-alikes. -/
def foldChar (c : Char) : Char :=
  if c = 'İ' ∨ c = 'ı' ∨ c = 'i' then 'I'
  else if c = 'Ğ' ∨ c = 'ğ' then 'G'
  else if c = 'Ü' ∨ c = 'ü' then 'U'
  else if c = 'Ş' ∨ c = 'ş' then 'S'
  else if c = 'Ö' ∨ c = 'ö' then 'O'
  else if c = 'Ç' ∨ c = 'ç' then 'C'
  else c

/-- `normalizeForProcessing`: uppercase, then fold Turkish letters to ASCII. -/
def normalizeForProcessing (s : List Char) : List Char :=
  (s.map jsUpperChar).map foldChar

/-- The filter used throughout the module to drop spaces and punctuation:
`char !== ' ' && char !== '\'' && ... && char !== '-'`. -/
def isKeptChar (c : Char) : Bool :=
  !(c = ' ' ∨ c = '\'' ∨ c = '.' ∨ c = ',' ∨ c = '!' ∨ c = '?' ∨ c = ':'
    ∨ c = ';' ∨ c = '-')

/-- The guessable letter sequence of a sentence as used by `makeGuess` and
`checkGameCompletion`: `toLocaleUpperCase('tr-TR')`, split into characters,
spaces and punctuation removed. -/
def sentenceLetters (s : List Char) : List Char :=
  (s.map trUpperChar).filter isKeptChar

/-- A recorded game result (`GameResult`). -/
structure GameResult where
  sentenceNumber : ℕ
  difficulty : Difficulty
  isWon : Bool
  mistakes : ℕ
  hintsUsed : ℕ
  timeSpent : ℕ
deriving DecidableEq, Repr

/-- The session-long progressive state (`ProgressiveGameState`). -/
structure ProgressiveGameState where
  currentSentenceNumber : ℕ
  performanceHistory : List GameResult
  currentDifficulty : Difficulty
  adaptiveMode : Bool
deriving DecidableEq, Repr

/-- The per-round mutable game state (`GameState`). -/
structure GameState where
  originalSentence : List Char
  cipherSentence : List Char
  letterMapping : List (Char × ℕ)
  revealedLetters : Finset Char
  userRevealedPositions : Finset ℕ
  initialRevealedPositions : Finset ℕ
  wordRevealedPositions : List (List Char × Finset ℕ)
  mistakes : ℕ
  maxMistakes : ℕ
  timeLimit : ℕ
  startTime : ℕ
  isGameOver : Bool
  isWon : Bool
  difficulty : Difficulty
  hintsUsed : ℕ
  maxHints : ℕ
deriving DecidableEq

/-- `checkGameCompletion`: every index of the sentence's letter sequence must
lie in `initialRevealedPositions ∪ userRevealedPositions ∪ newRevealedPositions`. -/
def checkGameCompletion (gs : GameState) (newRevealedPositions : List ℕ) : Bool :=
  let allLetters := sentenceLetters gs.originalSentence
  let allRevealedPositions :=
    gs.initialRevealedPositions ∪ gs.userRevealedPositions ∪ newRevealedPositions.toFinset
  (List.range allLetters.length).all fun i => decide (i ∈ allRevealedPositions)

/-- The correctness test of `makeGuess`: the letter of the sentence at the
target index (Turkish-locale uppercased, spaces and punctuation skipped)
must equal the Turkish-locale uppercased guess.  An out-of-range index
compares `undefined` against the guess and is never correct. -/
def guessIsCorrect (gs : GameState) (letter : Char) (idx : ℕ) : Bool :=
  let userLetter := trUpperChar letter
  let allLetters := sentenceLetters gs.originalSentence
  match allLetters[idx]? with
  | some c => decide (c = userLetter)
  | none => false

/-- `makeGuess`: reject when the round is over or no target index is given;
otherwise compare the Turkish-uppercased guess against the letter at the
target index, add the position on a correct guess (winning when the
completion check passes), and increment `mistakes` on an incorrect guess
(losing when `maxMistakes` is reached).  The `difficulty` parameter is
accepted but, as in the source, unused. -/
def makeGuess (gs : GameState) (letter : Char) (_difficulty : Difficulty)
    (targetIndex : Option ℕ) : Bool × GameState :=
  match targetIndex with
  | none => (false, gs)
  | some idx =>
    if gs.isGameOver then (false, gs)
    else
      if guessIsCorrect gs letter idx then
        let ns := { gs with userRevealedPositions := insert idx gs.userRevealedPositions }
        if checkGameCompletion ns [] then
          (true, { ns with isWon := true, isGameOver := true })
        else
          (true, ns)
      else
        let ns := { gs with mistakes := gs.mistakes + 1 }
        if ns.maxMistakes ≤ ns.mistakes then
          (false, { ns with isGameOver := true, isWon := false })
        else
          (false, ns)

/-- A small concrete game state over the sentence `"EV"` with position `0`
pre-revealed, used to instantiate the hypotheses of the guess theorems. -/
def demoState : GameState :=
  { originalSentence := ['E', 'V']
    cipherSentence := []
    letterMapping := []
    revealedLetters := ∅
    userRevealedPositions := ∅
    initialRevealedPositions := {0}
    wordRevealedPositions := []
    mistakes := 0
    maxMistakes := 3
    timeLimit := 0
    startTime := 0
    isGameOver := false
    isWon := false
    difficulty := .easy
    hintsUsed := 0
    maxHints := 3 }

/-- JavaScript `Array.slice(-n)`: the last `n` elements (the whole list when
it is shorter than `n`). -/
def jsSliceLast {α : Type} (n : ℕ) (l : List α) : List α :=
  l.drop (l.length - n)

/-- `getHintStrength`: easy always gets strong hints, hard always weak; for
medium the progressive state may upgrade to strong (recent win rate of the
last three games below `0.5`, or still within the first ten sentences). -/
def getHintStrength (difficulty : Difficulty)
    (progressiveState : Option ProgressiveGameState) : HintStrength :=
  if difficulty = .easy then .strong
  else if difficulty = .hard then .weak
  else
    match progressiveState with
    | some ps =>
      let last3Games := jsSliceLast 3 ps.performanceHistory
      let successRate : ℚ :=
        ((last3Games.filter (·.isWon)).length : ℚ) / (last3Games.length : ℚ)
      if 3 ≤ ps.performanceHistory.length ∧ successRate < 0.5 then .strong
      else if ps.currentSentenceNumber ≤ 10 then .strong
      else .weak
    | none => .weak

/-- `calculateNextDifficulty`: with empty recent history return easy,
otherwise bucket a single uniform draw by sentence-number band.  The
success rate and average mistakes of the window are computed but unused,
exactly as in the source. -/
def calculateNextDifficulty (sentenceNumber : ℕ) (recentPerformance : List GameResult)
    (rand : ℚ) : Difficulty :=
  let last5Games := jsSliceLast 5 recentPerformance
  if last5Games.length = 0 then .easy
  else
    let successRate : ℚ :=
      ((last5Games.filter (·.isWon)).length : ℚ) / (last5Games.length : ℚ)
    let averageMistakes : ℚ :=
      (last5Games.foldl (fun sum g => sum + (g.mistakes : ℚ)) 0) / (last5Games.length : ℚ)
    if sentenceNumber ≤ 5 then
      if rand < 0.7 then .easy else .medium
    else if sentenceNumber ≤ 15 then
      if rand < 0.5 then .easy else if rand < 0.9 then .medium else .hard
    else if sentenceNumber ≤ 30 then
      if rand < 0.3 then .easy else if rand < 0.8 then .medium else .hard
    else
      if rand < 0.2 then .easy else if rand < 0.6 then .medium else .hard

/-- The whitespace test of JavaScript `String.trim()` restricted to the
whitespace characters that can occur in the game's text. -/
def isJsWhitespaceChar (c : Char) : Bool :=
  c = ' ' ∨ c = '\t' ∨ c = '\n' ∨ c = '\r'

/-- JavaScript `split(' ')`: cut the character list at every space; adjacent
spaces produce empty segments. -/
def splitOnSpace : List Char → List (List Char)
  | [] => [[]]
  | c :: rest =>
    if c = ' ' then [] :: splitOnSpace rest
    else
      match splitOnSpace rest with
      | [] => [[c]]
      | w :: ws => (c :: w) :: ws

/-- `sentence.split(' ').filter(word => word.trim() !== '')`. -/
def sentenceWords (s : List Char) : List (List Char) :=
  (splitOnSpace s).filter fun w => w.any fun c => !(isJsWhitespaceChar c)

/-- A word's letters with punctuation removed (no case change), as used for
global-position bookkeeping. -/
def wordLetters (w : List Char) : List Char :=
  w.filter isKeptChar

/-- A word's letters after `toUpperCase()` with punctuation removed, as used
for word-length classification and reveal selection. -/
def wordLettersUpper (w : List Char) : List Char :=
  (w.map jsUpperChar).filter isKeptChar

/-- The outcome record returned by `useHint`. -/
structure HintOutcome where
  success : Bool
  revealedPositions : Option (List ℕ)
  message : String
  isGameCompleted : Option Bool
deriving DecidableEq, Repr

/-- The per-word accumulation loop of `useHint`: for each word (in order,
carrying the running global letter offset) collect the global positions that
are in neither revealed set, keeping only words that still have some. -/
def hintAvailableWordsAux (init user : Finset ℕ) :
    List (List Char) → ℕ → List (List Char × List ℕ)
  | [], _ => []
  | word :: ws, g =>
    let wl := wordLetters word
    let availablePositions :=
      ((List.range wl.length).map fun i => g + i).filter fun p =>
        decide (p ∉ init ∧ p ∉ user)
    let rest := hintAvailableWordsAux init user ws (g + wl.length)
    if 0 < availablePositions.length then (word, availablePositions) :: rest else rest

/-- `useHint`: fail when hints are exhausted or nothing is hidden; otherwise
pick a random eligible word and a random hidden position in it (`randWord`
is the word draw, `shufPositions` the comparator shuffle of the word's
hidden positions), then reveal either all hidden occurrences of the chosen
letter (strong) or just the chosen position (weak).  The function returns
only an outcome record: it never writes to the game state, committing the
positions is the caller's job. -/
def useHint (gs : GameState) (randWord : ℚ) (shufPositions : List ℕ → List ℕ)
    (progressiveState : Option ProgressiveGameState) : HintOutcome :=
  if gs.maxHints ≤ gs.hintsUsed then
    { success := false, revealedPositions := none,
      message := "Tüm ipuçları kullanıldı!", isGameCompleted := none }
  else
    let words := sentenceWords gs.originalSentence
    let availableWords :=
      hintAvailableWordsAux gs.initialRevealedPositions gs.userRevealedPositions words 0
    if availableWords.length = 0 then
      { success := false, revealedPositions := none,
        message := "Açılacak harf kalmadı!", isGameCompleted := none }
    else
      let randomWord :=
        availableWords.getD (Int.toNat ⌊randWord * (availableWords.length : ℚ)⌋) ([], [])
      let shuffledPositions := shufPositions randomWord.2
      let selectedPosition := shuffledPositions.headD 0
      let hintStrength := getHintStrength gs.difficulty progressiveState
      let revealedPositions :=
        if hintStrength = .strong then
          let allLetters := (normalizeForProcessing gs.originalSentence).filter isKeptChar
          let selectedLetter := allLetters[selectedPosition]?
          (List.range allLetters.length).filter fun i =>
            decide (allLetters[i]? = selectedLetter) &&
              !(decide (i ∈ gs.initialRevealedPositions)) &&
              !(decide (i ∈ gs.userRevealedPositions))
        else
          [selectedPosition]
      { success := true, revealedPositions := some revealedPositions,
        message := "", isGameCompleted := some (checkGameCompletion gs revealedPositions) }

/-- A terminal (lost) variant of `demoState`, with hints still available and
position `1` still hidden. -/
def demoLostState : GameState :=
  { demoState with mistakes := 3, isGameOver := true, isWon := false }

/-- An exhausted-hints variant of `demoState`. -/
def demoNoHintsState : GameState :=
  { demoState with hintsUsed := 3 }

/-- A hard-difficulty variant of `demoState`. -/
def demoHardState : GameState :=
  { demoState with difficulty := .hard }

/-- A concrete recorded game result, used to instantiate history-dependent
hypotheses. -/
def demoResult : GameResult :=
  { sentenceNumber := 1, difficulty := .easy, isWon := true, mistakes := 0,
    hintsUsed := 0, timeSpent := 10 }

/-- The fixed ordered 29-letter Turkish alphabet
`'ABCÇDEFGĞHIİJKLMNOÖPRSŞTUÜVYZ'`. -/
def turkishAlphabet : List Char :=
  ['A', 'B', 'C', 'Ç', 'D', 'E', 'F', 'G', 'Ğ', 'H', 'I', 'İ', 'J', 'K', 'L',
   'M', 'N', 'O', 'Ö', 'P', 'R', 'S', 'Ş', 'T', 'U', 'Ü', 'V', 'Y', 'Z']

/-- The JavaScript destructuring swap
`[numbers[i], numbers[j]] = [numbers[j], numbers[i]]` on a list. -/
def swapL (l : List ℕ) (i j : ℕ) : List ℕ :=
  (l.set i (l.getD j 0)).set j (l.getD i 0)

/-- One iteration of the shuffle loop of `generateCipherMapping` at loop
index `i`: draw `j = Math.floor(Math.random() * (i + 1))` and swap
positions `i` and `j`. -/
def fyStep (rand : ℕ → ℚ) (l : List ℕ) (i : ℕ) : List ℕ :=
  swapL l i (Int.toNat ⌊rand i * ((i : ℚ) + 1)⌋)

/-- The shuffle loop `for (let i = length - 1; i > 0; i--)` of
`generateCipherMapping`, with `rand i` the uniform draw consumed at loop
index `i`. -/
def fyAux (rand : ℕ → ℚ) : List ℕ → ℕ → List ℕ
  | l, 0 => l
  | l, n + 1 => fyAux rand (fyStep rand l (n + 1)) n

/-- `generateCipherMapping`: build `[1..29]`, shuffle it, and map the
`i`-th alphabet letter to the `i`-th shuffled number. -/
def generateCipherMapping (rand : ℕ → ℚ) : List (Char × ℕ) :=
  turkishAlphabet.zip (fyAux rand (List.range' 1 29) 28)

/-- The all-zeros draw sequence, a valid instance of `Math.random()`
output used to instantiate randomness hypotheses. -/
def rand0 : ℕ → ℚ := fun _ => 0

/-- The draw sequence `i ↦ i / (i + 1)`: every draw lies in `[0, 1)`, and
the resulting Fisher–Yates run swaps every position with itself, leaving
`[1..29]` in order. -/
def exRand : ℕ → ℚ := fun i => (i : ℚ) / ((i : ℚ) + 1)

/-- JavaScript `number.toString()` for a natural number: its decimal digit
characters. -/
def digitsOf (n : ℕ) : List Char :=
  (Nat.repr n).toList

/-- JavaScript truthiness of `mapping.get(char)`: `undefined` and `0` are
falsy. -/
def numTruthy : Option ℕ → Bool
  | none => false
  | some n => !(n = 0)

/-- The per-character rendering step of `sentenceToCipher` (applied after
the whole sentence is uppercased): spaces and punctuation pass through;
otherwise look the character up in the mapping, retrying with the
`normalizeForProcessing` form on a falsy result, and render the decimal
number; characters matching neither path pass through. -/
def cipherUnit (mapping : List (Char × ℕ)) (c : Char) : List Char :=
  if c = ' ' then [' ']
  else if c = '\'' then ['\'']
  else if c = '.' then ['.']
  else if c = ',' then [',']
  else if c = '!' then ['!']
  else if c = '?' then ['?']
  else if c = ':' then [':']
  else if c = ';' then [';']
  else if c = '-' then ['-']
  else
    let number := mapping.lookup c
    let number2 := if numTruthy number then number else mapping.lookup (foldChar (jsUpperChar c))
    if numTruthy number2 then digitsOf (number2.getD 0) else [c]

/-- The list of per-character rendered tokens of `sentenceToCipher` (the
stage immediately before `join('')`). -/
def cipherUnits (sentence : List Char) (mapping : List (Char × ℕ)) : List (List Char) :=
  (sentence.map jsUpperChar).map (cipherUnit mapping)

/-- `sentenceToCipher`: uppercase the sentence, render every character, and
concatenate the tokens with no separator. -/
def sentenceToCipher (sentence : List Char) (mapping : List (Char × ℕ)) : List Char :=
  (cipherUnits sentence mapping).flatten

/-- The word-length buckets of `getWordLengthCategory`
(`'3-4' | '5-6' | '7-8' | '9' | '10-12' | '12+'`). -/
inductive WordLengthCategory
  | c34
  | c56
  | c78
  | c9
  | c1012
  | c12plus
deriving DecidableEq, Repr

/-- `getWordLengthCategory`: classify a word length into its bucket. -/
def getWordLengthCategory (wordLength : ℕ) : WordLengthCategory :=
  if wordLength ≤ 4 then .c34
  else if wordLength ≤ 6 then .c56
  else if wordLength ≤ 8 then .c78
  else if wordLength ≤ 9 then .c9
  else if wordLength ≤ 12 then .c1012
  else .c12plus

/-- The `letterRevealLimits` table of a difficulty: one maximum reveal count
per word-length bucket. -/
structure LetterRevealLimits where
  cat34 : ℕ
  cat56 : ℕ
  cat78 : ℕ
  cat9 : ℕ
  cat1012 : ℕ
  cat12plus : ℕ
deriving DecidableEq, Repr

/-- Table lookup `letterRevealLimits[wordLengthCategory]`. -/
def LetterRevealLimits.get (lim : LetterRevealLimits) : WordLengthCategory → ℕ
  | .c34 => lim.cat34
  | .c56 => lim.cat56
  | .c78 => lim.cat78
  | .c9 => lim.cat9
  | .c1012 => lim.cat1012
  | .c12plus => lim.cat12plus

/-- The per-tier difficulty settings from `gameSettings.json` (external
configuration). -/
structure DifficultySettings where
  timeLimit : ℕ
  hintCount : ℕ
  revealProbability : ℚ
  letterRevealLimits : LetterRevealLimits
deriving DecidableEq, Repr

/-- The `gameMechanics` section of `gameSettings.json`. -/
structure GameMechanics where
  commonLetters : List Char
  useEdgePositions : Bool
deriving DecidableEq, Repr

/-- The whole `gameSettings.json` configuration (external input). -/
structure GameSettings where
  easy : DifficultySettings
  medium : DifficultySettings
  hard : DifficultySettings
  gameMechanics : GameMechanics
deriving DecidableEq, Repr

/-- `getDifficultySettings`. -/
def getDifficultySettings (settings : GameSettings) : Difficulty → DifficultySettings
  | .easy => settings.easy
  | .medium => settings.medium
  | .hard => settings.hard

/-- JavaScript `[...new Set(list)]`: deduplicate keeping the first
occurrence of each element, preserving order. -/
def jsDedupAux (seen : List ℕ) : List ℕ → List ℕ
  | [] => []
  | a :: l => if a ∈ seen then jsDedupAux seen l else a :: jsDedupAux (a :: seen) l

/-- Deduplication as performed on the easy-mode priority position list. -/
def jsDedup (l : List ℕ) : List ℕ :=
  jsDedupAux [] l

/-- `commonLetters.includes(originalWordLetters[index])`: an out-of-range
access compares `undefined`, which is never included. -/
def charAtIn (l : List Char) (i : ℕ) (s : List Char) : Bool :=
  match l[i]? with
  | some c => decide (c ∈ s)
  | none => false

/-- The per-word body of `initializeGame`'s reveal-selection loop: decide
how many letters to reveal from this word (easy: always the bucket
maximum; medium/hard: for short words a Bernoulli trial `bern <
revealProbability` reveals one letter, else the bucket maximum) and pick
the intra-word positions (easy with `useEdgePositions`: word edges first,
then common letters, then the rest, deduplicated; otherwise a comparator
shuffle `shuf` of all positions), truncated to the decided count. -/
def selectWordPositions (settings : GameSettings) (difficulty : Difficulty)
    (bern : ℚ) (shuf : List ℕ → List ℕ) (word : List Char) : List ℕ :=
  let wordLs := wordLettersUpper word
  let difficultySettings := getDifficultySettings settings difficulty
  let wordLengthCategory := getWordLengthCategory wordLs.length
  let maxLettersFromWord := difficultySettings.letterRevealLimits.get wordLengthCategory
  let revealProbability := difficultySettings.revealProbability
  let lettersFromThisWord :=
    match difficulty with
    | .easy => maxLettersFromWord
    | .medium =>
      if wordLs.length ≤ 4 then
        if bern < revealProbability then min 1 maxLettersFromWord else 0
      else maxLettersFromWord
    | .hard =>
      if wordLs.length ≤ 4 then
        if bern < revealProbability then min 1 maxLettersFromWord else 0
      else maxLettersFromWord
  if 0 < lettersFromThisWord then
    let originalWordLetters := wordLettersUpper word
    let allPositions := List.range originalWordLetters.length
    match difficulty with
    | .easy =>
      if settings.gameMechanics.useEdgePositions then
        let edgePositions := [0, originalWordLetters.length - 1]
        let commonPositions := allPositions.filter fun i =>
          charAtIn originalWordLetters i settings.gameMechanics.commonLetters
        let rarePositions := allPositions.filter fun i =>
          !(charAtIn originalWordLetters i settings.gameMechanics.commonLetters)
        let priorityPositions := jsDedup (edgePositions ++ commonPositions ++ rarePositions)
        priorityPositions.take (min lettersFromThisWord priorityPositions.length)
      else
        (shuf allPositions).take (min lettersFromThisWord allPositions.length)
    | .medium => (shuf allPositions).take (min lettersFromThisWord allPositions.length)
    | .hard => (shuf allPositions).take (min lettersFromThisWord allPositions.length)
  else []

/-- The `wordRevealedPositions` update: `if (!map.has(word)) map.set(word,
new Set()); selectedPositions.forEach(p => map.get(word).add(p))` — the
positions merge into the entry of the word's *text*, so two occurrences of
the same word text share one entry. -/
def addWordPositions : List (List Char × Finset ℕ) → List Char → List ℕ →
    List (List Char × Finset ℕ)
  | [], w, ps => [(w, ps.toFinset)]
  | (k, s) :: rest, w, ps =>
    if k = w then (k, s ∪ ps.toFinset) :: rest
    else (k, s) :: addWordPositions rest w ps

/-- Phase one of `initializeGame`: iterate the words in order (the word
index `k` addresses that word's random draws), skipping words with no
letters, selecting reveal positions for the rest and merging them into the
word-text-keyed map. -/
def buildWordReveals (settings : GameSettings) (difficulty : Difficulty)
    (bern : ℕ → ℚ) (shuf : ℕ → List ℕ → List ℕ) :
    List (List Char) → ℕ → List (List Char × Finset ℕ) → List (List Char × Finset ℕ)
  | [], _, acc => acc
  | word :: ws, k, acc =>
    if (wordLettersUpper word).length = 0 then
      buildWordReveals settings difficulty bern shuf ws (k + 1) acc
    else
      buildWordReveals settings difficulty bern shuf ws (k + 1)
        (addWordPositions acc word
          (selectWordPositions settings difficulty (bern k) (shuf k) word))

/-- Phase two of `initializeGame`: walk the words again, keeping a running
global letter offset, and translate each word's recorded intra-word
positions (looked up by word text) into global positions. -/
def globalizePositions (assoc : List (List Char × Finset ℕ)) :
    List (List Char) → ℕ → Finset ℕ
  | [], _ => ∅
  | word :: ws, g =>
    (match assoc.lookup word with
      | some ps => ps.image fun p => g + p
      | none => (∅ : Finset ℕ)) ∪
    globalizePositions assoc ws (g + (wordLetters word).length)

/-- `initializeGame` with its external inputs made explicit: the chosen
sentence text, the generated cipher mapping, the configuration, the random
draws (`bern k` the Bernoulli draw and `shuf k` the comparator shuffle of
word `k`) and the clock reading. -/
def initializeGameCore (settings : GameSettings) (sentenceText : List Char)
    (difficulty : Difficulty) (mapping : List (Char × ℕ))
    (bern : ℕ → ℚ) (shuf : ℕ → List ℕ → List ℕ) (now : ℕ) : GameState :=
  let cipherSentence := sentenceToCipher sentenceText mapping
  let difficultySettings := getDifficultySettings settings difficulty
  let words := sentenceWords sentenceText
  let wordRevealedPositions := buildWordReveals settings difficulty bern shuf words 0 []
  let initialRevealedPositions := globalizePositions wordRevealedPositions words 0
  { originalSentence := sentenceText
    cipherSentence := cipherSentence
    letterMapping := mapping
    revealedLetters := ∅
    userRevealedPositions := ∅
    initialRevealedPositions := initialRevealedPositions
    wordRevealedPositions := wordRevealedPositions
    mistakes := 0
    maxMistakes := 3
    timeLimit := difficultySettings.timeLimit
    startTime := now
    isGameOver := false
    isWon := false
    difficulty := difficulty
    hintsUsed := 0
    maxHints := difficultySettings.hintCount }

/-- The global letter offset of the `k`-th word: the total letter count of
the preceding words. -/
def offsetBefore (ws : List (List Char)) (k : ℕ) : ℕ :=
  ((ws.take k).map fun w => (wordLetters w).length).sum

/-- How many of the `len` positions of the word span starting at global
offset `off` lie in the reveal set. -/
def spanRevealCount (init : Finset ℕ) (off len : ℕ) : ℕ :=
  ((Finset.range len).filter fun p => off + p ∈ init).card

/-- The entry of a word-keyed position map, defaulting to the empty set. -/
def lookupSet (assoc : List (List Char × Finset ℕ)) (w : List Char) : Finset ℕ :=
  (assoc.lookup w).getD ∅

/-- A concrete reveal-limits table: one letter from short words. -/
def demoLimits : LetterRevealLimits :=
  { cat34 := 1, cat56 := 2, cat78 := 3, cat9 := 3, cat1012 := 4, cat12plus := 5 }

/-- A concrete per-tier settings record. -/
def demoTier : DifficultySettings :=
  { timeLimit := 300, hintCount := 3, revealProbability := 1,
    letterRevealLimits := demoLimits }

/-- A concrete full configuration. -/
def demoSettings : GameSettings :=
  { easy := demoTier, medium := demoTier, hard := demoTier,
    gameMechanics :=
      { commonLetters := ['E', 'A', 'İ', 'N', 'R', 'L', 'T', 'O', 'U', 'K', 'M', 'Y', 'S', 'D'],
        useEdgePositions := true } }

/-- Always-zero Bernoulli draws (every trial succeeds against a positive
probability). -/
def demoBern : ℕ → ℚ := fun _ => 0

/-- A concrete comparator-shuffle outcome: the first word's positions stay
in order, every later word's are reversed.  Both are permutations, as a
JavaScript `sort` always produces. -/
def demoShuf : ℕ → List ℕ → List ℕ :=
  fun k l => if k = 0 then l else l.reverse

/-! ### Basic lemmas about the guess state machine -/

theorem checkGameCompletion_iff (gs : GameState) (new : List ℕ) :
    checkGameCompletion gs new = true ↔
      ∀ p < (sentenceLetters gs.originalSentence).length,
        p ∈ gs.initialRevealedPositions ∪ gs.userRevealedPositions ∪ new.toFinset := by
  simp [checkGameCompletion]

theorem makeGuess_correct_eq (gs : GameState) (letter : Char) (d : Difficulty) (i : ℕ)
    (hgo : gs.isGameOver = false) (hc : guessIsCorrect gs letter i = true) :
    makeGuess gs letter d (some i) =
      (true,
        if checkGameCompletion
            { gs with userRevealedPositions := insert i gs.userRevealedPositions } [] then
          { gs with userRevealedPositions := insert i gs.userRevealedPositions,
                    isWon := true, isGameOver := true }
        else
          { gs with userRevealedPositions := insert i gs.userRevealedPositions }) := by
  simp only [makeGuess, hgo, Bool.false_eq_true, if_false, hc, if_true]
  split <;> rfl

theorem makeGuess_incorrect_eq (gs : GameState) (letter : Char) (d : Difficulty) (i : ℕ)
    (hgo : gs.isGameOver = false) (hc : guessIsCorrect gs letter i = false) :
    makeGuess gs letter d (some i) =
      (false,
        if gs.maxMistakes ≤ gs.mistakes + 1 then
          { gs with mistakes := gs.mistakes + 1, isGameOver := true, isWon := false }
        else
          { gs with mistakes := gs.mistakes + 1 }) := by
  simp only [makeGuess, hgo, Bool.false_eq_true, if_false, hc]
  split <;> rfl

theorem makeGuess_originalSentence (gs : GameState) (letter : Char) (d : Difficulty)
    (t : Option ℕ) : (makeGuess gs letter d t).2.originalSentence = gs.originalSentence := by
  unfold makeGuess
  cases t with
  | none => rfl
  | some i =>
    dsimp only
    split
    · rfl
    · split
      · split <;> rfl
      · split <;> rfl

theorem guessIsCorrect_congr (gs gs' : GameState) (letter : Char) (i : ℕ)
    (h : gs'.originalSentence = gs.originalSentence) :
    guessIsCorrect gs' letter i = guessIsCorrect gs letter i := by
  unfold guessIsCorrect
  rw [h]

theorem guessIsCorrect_of_out_of_range (gs : GameState) (letter : Char) (i : ℕ)
    (hi : (sentenceLetters gs.originalSentence).length ≤ i) :
    guessIsCorrect gs letter i = false := by
  simp only [guessIsCorrect, List.getElem?_eq_none hi]

theorem makeGuess_incorrect_no_loss (gs : GameState) (letter : Char) (d : Difficulty) (i : ℕ)
    (hgo : gs.isGameOver = false) (hc : guessIsCorrect gs letter i = false)
    (hm : gs.mistakes + 1 < gs.maxMistakes) :
    makeGuess gs letter d (some i) = (false, { gs with mistakes := gs.mistakes + 1 }) := by
  rw [makeGuess_incorrect_eq gs letter d i hgo hc, if_neg (by omega)]

theorem makeGuess_incorrect_loss (gs : GameState) (letter : Char) (d : Difficulty) (i : ℕ)
    (hgo : gs.isGameOver = false) (hc : guessIsCorrect gs letter i = false)
    (hm : gs.maxMistakes ≤ gs.mistakes + 1) :
    makeGuess gs letter d (some i) =
      (false, { gs with mistakes := gs.mistakes + 1, isGameOver := true, isWon := false }) := by
  rw [makeGuess_incorrect_eq gs letter d i hgo hc, if_pos hm]

/-! ### C1: win condition exactness of a correct guess -/

/-- **C1**: from a non-terminal state, a correct guess at an in-range target
index is accepted, and the returned state has `isWon = true` and
`isGameOver = true` exactly when every position in
`[0, totalLetterCount)` lies in `initialRevealedPositions ∪
userRevealedPositions` of the returned state (the target index having been
added); otherwise both flags stay `false`. -/
theorem correct_guess_win_iff (gs : GameState) (letter : Char) (d : Difficulty) (i : ℕ)
    (hgo : gs.isGameOver = false) (hw : gs.isWon = false)
    (hi : i < (sentenceLetters gs.originalSentence).length)
    (hc : guessIsCorrect gs letter i = true) :
    (makeGuess gs letter d (some i)).1 = true ∧
    (((makeGuess gs letter d (some i)).2.isWon = true ∧
        (makeGuess gs letter d (some i)).2.isGameOver = true) ↔
      ∀ p < (sentenceLetters gs.originalSentence).length,
        p ∈ (makeGuess gs letter d (some i)).2.initialRevealedPositions ∪
            (makeGuess gs letter d (some i)).2.userRevealedPositions) ∧
    ((¬ ∀ p < (sentenceLetters gs.originalSentence).length,
        p ∈ gs.initialRevealedPositions ∪ insert i gs.userRevealedPositions) →
      (makeGuess gs letter d (some i)).2.isWon = false ∧
      (makeGuess gs letter d (some i)).2.isGameOver = false) := by
  rw [makeGuess_correct_eq gs letter d i hgo hc]
  by_cases hcomp : checkGameCompletion
      { gs with userRevealedPositions := insert i gs.userRevealedPositions } [] = true
  · rw [if_pos hcomp]
    rw [checkGameCompletion_iff] at hcomp
    simp only [List.toFinset_nil, Finset.union_empty] at hcomp
    refine ⟨rfl, ?_, ?_⟩
    · simpa using hcomp
    · intro hnot
      exact absurd hcomp hnot
  · rw [if_neg hcomp]
    rw [checkGameCompletion_iff] at hcomp
    simp only [List.toFinset_nil, Finset.union_empty] at hcomp
    refine ⟨rfl, ?_, fun _ => ⟨hw, hgo⟩⟩
    constructor
    · rintro ⟨hW, -⟩
      exact absurd hW (by simp [hw])
    · intro hall
      exact absurd (by simpa using hall) hcomp

/-- Witness for `correct_guess_win_iff`: guessing `V` at position `1` of the
sentence `"EV"` with position `0` pre-revealed wins the round. -/
theorem correct_guess_win_iff_witness :
    demoState.isGameOver = false ∧ demoState.isWon = false ∧
    1 < (sentenceLetters demoState.originalSentence).length ∧
    guessIsCorrect demoState 'V' 1 = true ∧
    ((makeGuess demoState 'V' .easy (some 1)).1 = true ∧
    (((makeGuess demoState 'V' .easy (some 1)).2.isWon = true ∧
        (makeGuess demoState 'V' .easy (some 1)).2.isGameOver = true) ↔
      ∀ p < (sentenceLetters demoState.originalSentence).length,
        p ∈ (makeGuess demoState 'V' .easy (some 1)).2.initialRevealedPositions ∪
            (makeGuess demoState 'V' .easy (some 1)).2.userRevealedPositions) ∧
    ((¬ ∀ p < (sentenceLetters demoState.originalSentence).length,
        p ∈ demoState.initialRevealedPositions ∪ insert 1 demoState.userRevealedPositions) →
      (makeGuess demoState 'V' .easy (some 1)).2.isWon = false ∧
      (makeGuess demoState 'V' .easy (some 1)).2.isGameOver = false)) :=
  ⟨by decide, by decide, by decide, by decide,
    correct_guess_win_iff demoState 'V' .easy 1 (by decide) (by decide) (by decide) (by decide)⟩

/-! ### C2: loss condition exactness of incorrect guesses -/

/-- **C2**: an incorrect guess from a non-terminal state increments
`mistakes` and is reported as not successful, and the returned state is
terminal-lost exactly when the incremented count reaches `maxMistakes = 3`;
moreover, from a fresh round three incorrect guesses (at any positions)
yield `mistakes = 3, isGameOver = true, isWon = false`, the round not being
lost before the third. -/
theorem incorrect_guess_loss_iff :
    (∀ (gs : GameState) (letter : Char) (d : Difficulty) (i : ℕ),
      gs.isGameOver = false → gs.maxMistakes = 3 → gs.mistakes < 3 →
      guessIsCorrect gs letter i = false →
      (makeGuess gs letter d (some i)).1 = false ∧
      (makeGuess gs letter d (some i)).2.mistakes = gs.mistakes + 1 ∧
      (((makeGuess gs letter d (some i)).2.isGameOver = true ∧
        (makeGuess gs letter d (some i)).2.isWon = false) ↔ gs.mistakes + 1 = 3)) ∧
    (∀ (gs : GameState) (l1 l2 l3 : Char) (d1 d2 d3 : Difficulty) (i1 i2 i3 : ℕ),
      gs.isGameOver = false → gs.isWon = false → gs.maxMistakes = 3 → gs.mistakes = 0 →
      guessIsCorrect gs l1 i1 = false → guessIsCorrect gs l2 i2 = false →
      guessIsCorrect gs l3 i3 = false →
      (makeGuess gs l1 d1 (some i1)).2.isGameOver = false ∧
      (makeGuess (makeGuess gs l1 d1 (some i1)).2 l2 d2 (some i2)).2.isGameOver = false ∧
      (makeGuess (makeGuess (makeGuess gs l1 d1 (some i1)).2 l2 d2 (some i2)).2
          l3 d3 (some i3)).2.mistakes = 3 ∧
      (makeGuess (makeGuess (makeGuess gs l1 d1 (some i1)).2 l2 d2 (some i2)).2
          l3 d3 (some i3)).2.isGameOver = true ∧
      (makeGuess (makeGuess (makeGuess gs l1 d1 (some i1)).2 l2 d2 (some i2)).2
          l3 d3 (some i3)).2.isWon = false) := by
  constructor
  · intro gs letter d i hgo hmax hlt hc
    by_cases h3 : gs.mistakes + 1 = 3
    · rw [makeGuess_incorrect_loss gs letter d i hgo hc (by omega)]
      exact ⟨rfl, rfl, by simp [h3]⟩
    · rw [makeGuess_incorrect_no_loss gs letter d i hgo hc (by omega)]
      refine ⟨rfl, rfl, ?_⟩
      constructor
      · rintro ⟨hO, -⟩
        exact absurd hO (by simp [hgo])
      · intro h
        exact absurd h h3
  · intro gs l1 l2 l3 d1 d2 d3 i1 i2 i3 hgo hw hmax hm hc1 hc2 hc3
    have e1 : makeGuess gs l1 d1 (some i1) = (false, { gs with mistakes := gs.mistakes + 1 }) :=
      makeGuess_incorrect_no_loss gs l1 d1 i1 hgo hc1 (by omega)
    rw [e1]
    set s1 : GameState := { gs with mistakes := gs.mistakes + 1 } with hs1
    have hc2' : guessIsCorrect s1 l2 i2 = false := by
      rw [guessIsCorrect_congr gs s1 l2 i2 rfl]; exact hc2
    have e2 : makeGuess s1 l2 d2 (some i2) = (false, { s1 with mistakes := s1.mistakes + 1 }) := by
      refine makeGuess_incorrect_no_loss s1 l2 d2 i2 hgo hc2' ?_
      show gs.mistakes + 1 + 1 < gs.maxMistakes
      omega
    rw [e2]
    set s2 : GameState := { s1 with mistakes := s1.mistakes + 1 } with hs2
    have hc3' : guessIsCorrect s2 l3 i3 = false := by
      rw [guessIsCorrect_congr gs s2 l3 i3 rfl]; exact hc3
    have e3 : makeGuess s2 l3 d3 (some i3) =
        (false, { s2 with mistakes := s2.mistakes + 1, isGameOver := true, isWon := false }) := by
      refine makeGuess_incorrect_loss s2 l3 d3 i3 hgo hc3' ?_
      show gs.maxMistakes ≤ gs.mistakes + 1 + 1 + 1
      omega
    rw [e3]
    refine ⟨hgo, hgo, ?_, rfl, rfl⟩
    show gs.mistakes + 1 + 1 + 1 = 3
    omega

/-- Witness for `incorrect_guess_loss_iff`: on the sentence `"EV"`, guessing
`A` three times at position `0` loses the round exactly at the third
mistake. -/
theorem incorrect_guess_loss_iff_witness :
    demoState.isGameOver = false ∧ demoState.isWon = false ∧
    demoState.maxMistakes = 3 ∧ demoState.mistakes = 0 ∧
    guessIsCorrect demoState 'A' 0 = false ∧
    ((makeGuess demoState 'A' .easy (some 0)).2.isGameOver = false ∧
      (makeGuess (makeGuess demoState 'A' .easy (some 0)).2 'A' .easy (some 0)).2.isGameOver
        = false ∧
      (makeGuess (makeGuess (makeGuess demoState 'A' .easy (some 0)).2 'A' .easy (some 0)).2
          'A' .easy (some 0)).2.mistakes = 3 ∧
      (makeGuess (makeGuess (makeGuess demoState 'A' .easy (some 0)).2 'A' .easy (some 0)).2
          'A' .easy (some 0)).2.isGameOver = true ∧
      (makeGuess (makeGuess (makeGuess demoState 'A' .easy (some 0)).2 'A' .easy (some 0)).2
          'A' .easy (some 0)).2.isWon = false) :=
  ⟨by decide, by decide, by decide, by decide, by decide,
    incorrect_guess_loss_iff.2 demoState 'A' 'A' 'A' .easy .easy .easy 0 0 0
      (by decide) (by decide) (by decide) (by decide) (by decide) (by decide) (by decide)⟩

/-! ### C10: out-of-range guesses count as mistakes -/

/-- **C10**: with the round active and a defined target index at or beyond
the sentence's total letter count, `makeGuess` evaluates totally, reports
`success = false`, counts the guess against the mistake budget exactly like
an incorrect in-range guess, and terminates the round as a loss exactly
when the incremented count reaches the mistake budget. -/
theorem out_of_range_guess_counts_mistake (gs : GameState) (letter : Char) (d : Difficulty)
    (i : ℕ) (hgo : gs.isGameOver = false)
    (hi : (sentenceLetters gs.originalSentence).length ≤ i) :
    (makeGuess gs letter d (some i)).1 = false ∧
    (makeGuess gs letter d (some i)).2.mistakes = gs.mistakes + 1 ∧
    ((makeGuess gs letter d (some i)).2.isGameOver = true ↔
      gs.maxMistakes ≤ gs.mistakes + 1) := by
  have hc := guessIsCorrect_of_out_of_range gs letter i hi
  rw [makeGuess_incorrect_eq gs letter d i hgo hc]
  by_cases hm : gs.maxMistakes ≤ gs.mistakes + 1
  · rw [if_pos hm]
    exact ⟨rfl, rfl, by simp [hm]⟩
  · rw [if_neg hm]
    refine ⟨rfl, rfl, ?_⟩
    constructor
    · intro hO
      exact absurd hO (by simp [hgo])
    · intro h
      exact absurd h hm

/-- Witness for `out_of_range_guess_counts_mistake`: position `5` is out of
range for the sentence `"EV"`, and guessing there counts a mistake. -/
theorem out_of_range_guess_counts_mistake_witness :
    demoState.isGameOver = false ∧
    (sentenceLetters demoState.originalSentence).length ≤ 5 ∧
    ((makeGuess demoState 'A' .easy (some 5)).1 = false ∧
      (makeGuess demoState 'A' .easy (some 5)).2.mistakes = demoState.mistakes + 1 ∧
      ((makeGuess demoState 'A' .easy (some 5)).2.isGameOver = true ↔
        demoState.maxMistakes ≤ demoState.mistakes + 1)) :=
  ⟨by decide, by decide,
    out_of_range_guess_counts_mistake demoState 'A' .easy 5 (by decide) (by decide)⟩

/-! ### C5: hard difficulty always yields weak hints -/

/-- **C5**: for hard difficulty the hint strength is `weak` for every
progressive-state argument, and consequently a successful `useHint` on a
hard-difficulty state returns exactly one revealed position (the anchor),
never all instances of a letter. -/
theorem hard_hint_always_weak :
    (∀ ps : Option ProgressiveGameState, getHintStrength .hard ps = .weak) ∧
    (∀ (gs : GameState) (r : ℚ) (sh : List ℕ → List ℕ)
        (ps : Option ProgressiveGameState) (l : List ℕ),
      gs.difficulty = .hard → (useHint gs r sh ps).revealedPositions = some l →
      l.length = 1) := by
  have hstrength : ∀ ps : Option ProgressiveGameState, getHintStrength .hard ps = .weak := by
    intro ps
    rfl
  refine ⟨hstrength, ?_⟩
  intro gs r sh ps l hd hrev
  unfold useHint at hrev
  by_cases h1 : gs.maxHints ≤ gs.hintsUsed
  · rw [if_pos h1] at hrev
    exact absurd hrev (by simp)
  · rw [if_neg h1] at hrev
    by_cases h2 : (hintAvailableWordsAux gs.initialRevealedPositions gs.userRevealedPositions
        (sentenceWords gs.originalSentence) 0).length = 0
    · rw [if_pos h2] at hrev
      exact absurd hrev (by simp)
    · rw [if_neg h2] at hrev
      rw [hd, hstrength ps] at hrev
      simp only [reduceCtorEq, if_false, Option.some.injEq] at hrev
      rw [← hrev]
      rfl

/-- Witness for `hard_hint_always_weak`: on the hard-difficulty demo state a
hint reveals exactly the single hidden position `1`. -/
theorem hard_hint_always_weak_witness :
    demoHardState.difficulty = .hard ∧
    (useHint demoHardState 0 id none).revealedPositions = some [1] ∧
    ([1] : List ℕ).length = 1 := by
  have hz : ∀ q : ℚ, Int.toNat ⌊(0 : ℚ) * q⌋ = 0 := fun q => by simp
  have hrev : (useHint demoHardState 0 id none).revealedPositions = some [1] := by
    simp only [useHint, hz]
    decide
  exact ⟨by decide, hrev,
    hard_hint_always_weak.2 demoHardState 0 id none [1] (by decide) hrev⟩

/-! ### C8: hint exhaustion -/

/-- **C8**: once `hintsUsed` has reached `maxHints`, `useHint` fails with the
descriptive exhaustion message and reveals nothing; since `useHint` only
returns an outcome record and never writes to the game state, no state
field changes. -/
theorem useHint_exhausted_fails (gs : GameState) (r : ℚ) (sh : List ℕ → List ℕ)
    (ps : Option ProgressiveGameState) (h : gs.maxHints ≤ gs.hintsUsed) :
    (useHint gs r sh ps).success = false ∧
    (useHint gs r sh ps).message = "Tüm ipuçları kullanıldı!" ∧
    (useHint gs r sh ps).revealedPositions = none := by
  unfold useHint
  rw [if_pos h]
  exact ⟨rfl, rfl, rfl⟩

/-- Witness for `useHint_exhausted_fails`: the demo state with all three
hints used. -/
theorem useHint_exhausted_fails_witness :
    demoNoHintsState.maxHints ≤ demoNoHintsState.hintsUsed ∧
    ((useHint demoNoHintsState 0 id none).success = false ∧
      (useHint demoNoHintsState 0 id none).message = "Tüm ipuçları kullanıldı!" ∧
      (useHint demoNoHintsState 0 id none).revealedPositions = none) :=
  ⟨by decide, useHint_exhausted_fails demoNoHintsState 0 id none (by decide)⟩

/-! ### C9: progressive difficulty, early band -/

theorem jsSliceLast_five_idem (h : List GameResult) :
    jsSliceLast 5 (jsSliceLast 5 h) = jsSliceLast 5 h := by
  have hlen : (jsSliceLast 5 h).length - 5 = 0 := by
    simp only [jsSliceLast, List.length_drop]
    omega
  rw [jsSliceLast, hlen, List.drop_zero]

theorem jsSliceLast_five_len_zero (h : List GameResult) :
    (jsSliceLast 5 h).length = 0 ↔ h = [] := by
  simp only [jsSliceLast, List.length_drop]
  constructor
  · intro hl
    have : h.length = 0 := by omega
    exact List.length_eq_zero.mp this
  · rintro rfl
    simp

/-- **C9**: `calculateNextDifficulty` returns easy on empty history, depends
on the history only through its last five entries, and in the sentence
band `1–5` with non-empty history returns easy exactly when the draw is
below `0.7` and medium otherwise — never hard. -/
theorem calculateNextDifficulty_props :
    (∀ (n : ℕ) (rand : ℚ), calculateNextDifficulty n [] rand = .easy) ∧
    (∀ (n : ℕ) (h : List GameResult) (rand : ℚ),
      calculateNextDifficulty n h rand = calculateNextDifficulty n (jsSliceLast 5 h) rand) ∧
    (∀ (n : ℕ) (h : List GameResult) (rand : ℚ), 1 ≤ n → n ≤ 5 → h ≠ [] →
      calculateNextDifficulty n h rand = if rand < 0.7 then .easy else .medium) := by
  refine ⟨fun n rand => rfl, ?_, ?_⟩
  · intro n h rand
    unfold calculateNextDifficulty
    rw [jsSliceLast_five_idem]
  · intro n h rand h1 h5 hne
    have hlen : ¬ (jsSliceLast 5 h).length = 0 := fun hz =>
      hne ((jsSliceLast_five_len_zero h).mp hz)
    unfold calculateNextDifficulty
    rw [if_neg hlen, if_pos h5]

/-- Witness for `calculateNextDifficulty_props`: sentence number `1`, a
one-game history and draw `0` produce `easy`. -/
theorem calculateNextDifficulty_props_witness :
    (1 : ℕ) ≤ 1 ∧ (1 : ℕ) ≤ 5 ∧ ([demoResult] : List GameResult) ≠ [] ∧
    calculateNextDifficulty 1 [demoResult] 0 =
      if (0 : ℚ) < 0.7 then Difficulty.easy else Difficulty.medium :=
  ⟨le_refl 1, by omega, by simp,
    calculateNextDifficulty_props.2.2 1 [demoResult] 0 (le_refl 1) (by omega) (by simp)⟩

/-! ### C3: behaviour on terminal states -/

/-- **C3 counterexample**: on a concrete terminal (lost) state that still has
hints and hidden positions, `useHint` reports `success = true`, so a hint
request against an `isGameOver` state is not reported as a failure. -/
theorem terminal_useHint_not_failure :
    demoLostState.isGameOver = true ∧
    (useHint demoLostState 0 id none).success = true := by
  exact ⟨rfl, by decide⟩

/-- **C3 amended**: `makeGuess` against a terminal state is a no-op that
reports failure and returns the state unchanged; `useHint`, however, never
consults `isGameOver`: it reports success exactly when hints remain and
some position is still hidden, terminal or not.  `useHint` still mutates
nothing — it returns only an outcome record, so every state field is
unchanged after the call. -/
theorem terminal_freeze_amended :
    (∀ (gs : GameState) (letter : Char) (d : Difficulty) (t : Option ℕ),
      gs.isGameOver = true → makeGuess gs letter d t = (false, gs)) ∧
    (∀ (gs : GameState) (r : ℚ) (sh : List ℕ → List ℕ)
        (ps : Option ProgressiveGameState),
      (useHint gs r sh ps).success = true ↔
        gs.hintsUsed < gs.maxHints ∧
        hintAvailableWordsAux gs.initialRevealedPositions gs.userRevealedPositions
          (sentenceWords gs.originalSentence) 0 ≠ []) := by
  constructor
  · intro gs letter d t hgo
    unfold makeGuess
    cases t with
    | none => rfl
    | some i => simp [hgo]
  · intro gs r sh ps
    unfold useHint
    by_cases h1 : gs.maxHints ≤ gs.hintsUsed
    · rw [if_pos h1]
      simp only [Bool.false_eq_true, false_iff, not_and]
      intro hlt
      omega
    · rw [if_neg h1]
      by_cases h2 : (hintAvailableWordsAux gs.initialRevealedPositions
          gs.userRevealedPositions (sentenceWords gs.originalSentence) 0).length = 0
      · rw [if_pos h2]
        simp only [Bool.false_eq_true, false_iff, not_and]
        intro _
        simpa using List.length_eq_zero.mp h2
      · rw [if_neg h2]
        simp only [true_iff]
        exact ⟨by omega, fun hnil => h2 (by simp [hnil])⟩

/-- Witness for `terminal_freeze_amended`: a guess against the terminal demo
state is rejected with the state unchanged. -/
theorem terminal_freeze_amended_witness :
    demoLostState.isGameOver = true ∧
    makeGuess demoLostState 'A' .easy (some 1) = (false, demoLostState) :=
  ⟨rfl, terminal_freeze_amended.1 demoLostState 'A' .easy (some 1) rfl⟩

/-! ### C7: the generated cipher mapping is a bijection onto 1..29 -/

theorem set_getElem_self (l : List ℕ) (i : ℕ) (h : i < l.length) :
    l.set i l[i] = l := by
  apply List.ext_getElem
  · simp
  · intro n h1 h2
    rw [List.getElem_set]
    split
    · next heq => subst heq; rfl
    · rfl

theorem count_le_of_getElem (l : List ℕ) (i a : ℕ) (h : i < l.length) (ha : l[i] = a) :
    1 ≤ l.count a := by
  have : a ∈ l := ha ▸ List.getElem_mem h
  exact List.count_pos_iff_mem.mpr this

theorem swapL_perm (l : List ℕ) (i j : ℕ) (hi : i < l.length) (hj : j < l.length) :
    (swapL l i j).Perm l := by
  rcases eq_or_ne i j with rfl | hne
  · unfold swapL
    rw [List.getD_eq_getElem l 0 hi, List.set_set, set_getElem_self l i hi]
  · rw [List.perm_iff_count]
    intro a
    unfold swapL
    rw [List.getD_eq_getElem l 0 hj, List.getD_eq_getElem l 0 hi]
    have hj' : j < (l.set i l[j]).length := by simpa using hj
    rw [List.count_set (h := hj'), List.count_set (h := hi)]
    rw [List.getElem_set, if_neg hne]
    by_cases h1 : l[i] = a <;> by_cases h2 : l[j] = a
    · have := count_le_of_getElem l i a hi h1
      simp [h1, h2] <;> omega
    · have := count_le_of_getElem l i a hi h1
      simp [h1, h2] <;> omega
    · have := count_le_of_getElem l j a hj h2
      simp [h1, h2] <;> omega
    · simp [h1, h2]

theorem fyStep_perm (rand : ℕ → ℚ) (l : List ℕ) (i : ℕ)
    (hr : 0 ≤ rand i ∧ rand i < 1) (hi : i < l.length) :
    (fyStep rand l i).Perm l := by
  unfold fyStep
  apply swapL_perm l i _ hi
  have hfl : ⌊rand i * ((i : ℚ) + 1)⌋ < ((i : ℤ) + 1) := by
    apply Int.floor_lt.mpr
    have hpos : (0 : ℚ) < (i : ℚ) + 1 := by positivity
    calc rand i * ((i : ℚ) + 1) < 1 * ((i : ℚ) + 1) := by
          exact mul_lt_mul_of_pos_right hr.2 hpos
      _ = (i : ℚ) + 1 := one_mul _
      _ = (((i : ℤ) + 1 : ℤ) : ℚ) := by push_cast; ring
  omega

theorem fyAux_perm (rand : ℕ → ℚ) (hr : ∀ k, 0 ≤ rand k ∧ rand k < 1) :
    ∀ (n : ℕ) (l : List ℕ), n < l.length → (fyAux rand l n).Perm l := by
  intro n
  induction n with
  | zero => intro l _; exact List.Perm.refl l
  | succ m ih =>
    intro l hn
    have hstep : (fyStep rand l (m + 1)).Perm l := fyStep_perm rand l (m + 1) (hr (m + 1)) hn
    have hlen : m < (fyStep rand l (m + 1)).length := by
      rw [hstep.length_eq]
      omega
    exact (ih (fyStep rand l (m + 1)) hlen).trans hstep

theorem lookup_mem_values {α β : Type} [BEq α] [LawfulBEq α]
    (ps : List (α × β)) (a : α) (n : β)
    (h : ps.lookup a = some n) : n ∈ ps.map Prod.snd := by
  induction ps with
  | nil => simp [List.lookup] at h
  | cons p rest ih =>
    obtain ⟨k, v⟩ := p
    rw [List.lookup] at h
    cases hab : (a == k) with
    | true =>
      rw [hab] at h
      have hv : v = n := by simpa using h
      subst hv
      simp
    | false =>
      rw [hab] at h
      have hn := ih (by simpa using h)
      simp only [List.map_cons, List.mem_cons]
      exact Or.inr hn

theorem lookup_pair_mem {α β : Type} [BEq α] [LawfulBEq α]
    (ps : List (α × β)) (a : α) (n : β)
    (h : ps.lookup a = some n) : (a, n) ∈ ps := by
  induction ps with
  | nil => simp [List.lookup] at h
  | cons p rest ih =>
    obtain ⟨k, v⟩ := p
    rw [List.lookup] at h
    cases hab : (a == k) with
    | true =>
      rw [hab] at h
      have hv : v = n := by simpa using h
      have hk : a = k := by simpa using hab
      subst hv
      subst hk
      simp
    | false =>
      rw [hab] at h
      exact List.mem_cons_of_mem _ (ih (by simpa using h))

theorem lookup_exists_of_mem_keys {α β : Type} [BEq α] [LawfulBEq α]
    (ps : List (α × β)) (a : α)
    (h : a ∈ ps.map Prod.fst) : ∃ n, ps.lookup a = some n := by
  induction ps with
  | nil => simp at h
  | cons p rest ih =>
    obtain ⟨k, v⟩ := p
    rw [List.lookup]
    cases hab : (a == k) with
    | true => exact ⟨v, rfl⟩
    | false =>
      show ∃ n, List.lookup a rest = some n
      apply ih
      simp only [List.map_cons, List.mem_cons] at h
      rcases h with h | h
      · exfalso
        rw [h] at hab
        simp at hab
      · exact h

theorem lookup_inj_of_nodup_values {α β : Type} [BEq α] [LawfulBEq α]
    (ps : List (α × β)) (hnd : (ps.map Prod.snd).Nodup) (a b : α) (n : β)
    (ha : ps.lookup a = some n) (hb : ps.lookup b = some n) : a = b := by
  induction ps with
  | nil => simp [List.lookup] at ha
  | cons p rest ih =>
    obtain ⟨k, v⟩ := p
    simp only [List.map_cons, List.nodup_cons] at hnd
    rw [List.lookup] at ha hb
    cases hak : (a == k) <;> cases hbk : (b == k) <;> rw [hak] at ha <;> rw [hbk] at hb
    · exact ih hnd.2 (by simpa using ha) (by simpa using hb)
    · have hv : v = n := by simpa using hb
      subst hv
      exact absurd (lookup_mem_values rest a v (by simpa using ha)) hnd.1
    · have hv : v = n := by simpa using ha
      subst hv
      exact absurd (lookup_mem_values rest b v (by simpa using hb)) hnd.1
    · have h1 : a = k := by simpa using hak
      have h2 : b = k := by simpa using hbk
      rw [h1, h2]

theorem generateCipherMapping_keys (rand : ℕ → ℚ) (hr : ∀ k, 0 ≤ rand k ∧ rand k < 1) :
    (generateCipherMapping rand).map Prod.fst = turkishAlphabet := by
  unfold generateCipherMapping
  apply List.map_fst_zip
  rw [(fyAux_perm rand hr 28 (List.range' 1 29) (by simp)).length_eq]
  simp [turkishAlphabet]

theorem generateCipherMapping_values_perm (rand : ℕ → ℚ)
    (hr : ∀ k, 0 ≤ rand k ∧ rand k < 1) :
    ((generateCipherMapping rand).map Prod.snd).Perm (List.range' 1 29) := by
  unfold generateCipherMapping
  rw [List.map_snd_zip]
  · exact fyAux_perm rand hr 28 (List.range' 1 29) (by simp)
  · rw [(fyAux_perm rand hr 28 (List.range' 1 29) (by simp)).length_eq]
    simp [turkishAlphabet]

/-- **C7**: for every sequence of uniform draws in `[0,1)`, the generated
cipher mapping assigns the 29 alphabet letters (in order) exactly the
numbers of a permutation of `1..29`; every letter gets a number in
`[1, 29]`, and distinct letters always get distinct numbers. -/
theorem generateCipherMapping_bijection (rand : ℕ → ℚ)
    (hr : ∀ k, 0 ≤ rand k ∧ rand k < 1) :
    (generateCipherMapping rand).map Prod.fst = turkishAlphabet ∧
    ((generateCipherMapping rand).map Prod.snd).Perm (List.range' 1 29) ∧
    (∀ c ∈ turkishAlphabet, ∃ n, (generateCipherMapping rand).lookup c = some n ∧
      1 ≤ n ∧ n ≤ 29) ∧
    (∀ (a b : Char) (n : ℕ), (generateCipherMapping rand).lookup a = some n →
      (generateCipherMapping rand).lookup b = some n → a = b) := by
  have hkeys := generateCipherMapping_keys rand hr
  have hvals := generateCipherMapping_values_perm rand hr
  refine ⟨hkeys, hvals, ?_, ?_⟩
  · intro c hc
    obtain ⟨n, hn⟩ := lookup_exists_of_mem_keys _ c (hkeys ▸ hc)
    have hmem : n ∈ (generateCipherMapping rand).map Prod.snd :=
      lookup_mem_values _ c n hn
    have : n ∈ List.range' 1 29 := hvals.mem_iff.mp hmem
    rw [List.mem_range'] at this
    obtain ⟨i, hi, rfl⟩ := this
    exact ⟨1 + 1 * i, hn, by omega, by omega⟩
  · intro a b n ha hb
    have hnd : ((generateCipherMapping rand).map Prod.snd).Nodup :=
      hvals.nodup_iff.mpr (by decide)
    exact lookup_inj_of_nodup_values _ hnd a b n ha hb

/-- Witness for `generateCipherMapping_bijection`: the all-zeros draw
sequence is a valid draw sequence and yields a bijective mapping. -/
theorem generateCipherMapping_bijection_witness :
    (∀ k, 0 ≤ rand0 k ∧ rand0 k < 1) ∧
    ((generateCipherMapping rand0).map Prod.fst = turkishAlphabet ∧
    ((generateCipherMapping rand0).map Prod.snd).Perm (List.range' 1 29) ∧
    (∀ c ∈ turkishAlphabet, ∃ n, (generateCipherMapping rand0).lookup c = some n ∧
      1 ≤ n ∧ n ≤ 29) ∧
    (∀ (a b : Char) (n : ℕ), (generateCipherMapping rand0).lookup a = some n →
      (generateCipherMapping rand0).lookup b = some n → a = b)) := by
  have hr : ∀ k, 0 ≤ rand0 k ∧ rand0 k < 1 := fun k => ⟨le_refl 0, by norm_num [rand0]⟩
  exact ⟨hr, generateCipherMapping_bijection rand0 hr⟩

/-! ### C6: cipher rendering and reconstruction -/

theorem exRand_valid : ∀ k, 0 ≤ exRand k ∧ exRand k < 1 := by
  intro k
  unfold exRand
  constructor
  · positivity
  · rw [div_lt_one (by positivity)]
    linarith

theorem exRand_floor (i : ℕ) : Int.toNat ⌊exRand i * ((i : ℚ) + 1)⌋ = i := by
  unfold exRand
  rw [div_mul_cancel₀ _ (by positivity : ((i : ℚ) + 1) ≠ 0)]
  rw [Int.floor_natCast]
  simp

theorem fyStep_exRand (l : List ℕ) (i : ℕ) (hi : i < l.length) :
    fyStep exRand l i = l := by
  unfold fyStep
  rw [exRand_floor]
  unfold swapL
  rw [List.getD_eq_getElem l 0 hi, List.set_set, set_getElem_self l i hi]

theorem fyAux_exRand : ∀ (n : ℕ) (l : List ℕ), n < l.length → fyAux exRand l n = l := by
  intro n
  induction n with
  | zero => intro l _; rfl
  | succ m ih =>
    intro l hn
    show fyAux exRand (fyStep exRand l (m + 1)) m = l
    rw [fyStep_exRand l (m + 1) hn]
    exact ih l (by omega)

theorem generateCipherMapping_exRand :
    generateCipherMapping exRand = turkishAlphabet.zip (List.range' 1 29) := by
  unfold generateCipherMapping
  rw [fyAux_exRand 28 _ (by simp)]

/-- **C6 counterexample**: under the mapping generated from the valid draw
sequence `exRand` (which maps `A ↦ 1`, `B ↦ 2`, `İ ↦ 12`), the two
alphabet-letter sentences `"AB"` and `"İ"` render to the same cipher string
`"12"` although their letter sequences differ, so the rendered cipher
string does not determine the original letters, and no inverse lookup can
reconstruct them from it. -/
theorem cipher_roundtrip_counterexample :
    sentenceToCipher ['A', 'B'] (generateCipherMapping exRand) =
      sentenceToCipher ['İ'] (generateCipherMapping exRand) ∧
    sentenceLetters ['A', 'B'] ≠ sentenceLetters ['İ'] := by
  rw [generateCipherMapping_exRand]
  constructor
  · decide
  · decide

theorem alpha_jsUpper_fixed : ∀ c ∈ turkishAlphabet, jsUpperChar c = c := by decide

theorem alpha_not_punct : ∀ c ∈ turkishAlphabet,
    ¬(c = ' ') ∧ ¬(c = '\'') ∧ ¬(c = '.') ∧ ¬(c = ',') ∧ ¬(c = '!') ∧ ¬(c = '?') ∧
    ¬(c = ':') ∧ ¬(c = ';') ∧ ¬(c = '-') := by decide

theorem range1_29_bounds : ∀ n ∈ List.range' 1 29, 1 ≤ n ∧ n ≤ 29 := by decide

theorem digitsOf_ne_space : ∀ n ∈ List.range' 1 29, digitsOf n ≠ [' '] := by decide

theorem digitsOf_injOn : ∀ m ∈ List.range' 1 29, ∀ n ∈ List.range' 1 29,
    digitsOf m = digitsOf n → m = n := by decide

theorem cipherUnit_alpha (m : List (Char × ℕ)) (c : Char) (n : ℕ)
    (hc : c ∈ turkishAlphabet) (hn : m.lookup c = some n) (h1 : 1 ≤ n) :
    cipherUnit m c = digitsOf n := by
  obtain ⟨e1, e2, e3, e4, e5, e6, e7, e8, e9⟩ := alpha_not_punct c hc
  simp only [cipherUnit, if_neg e1, if_neg e2, if_neg e3, if_neg e4, if_neg e5,
    if_neg e6, if_neg e7, if_neg e8, if_neg e9, hn]
  have htr : numTruthy (some n) = true := by
    simp only [numTruthy, Bool.not_eq_true', decide_eq_false_iff_not]
    omega
  simp [htr]

theorem cipherUnit_space (m : List (Char × ℕ)) : cipherUnit m ' ' = [' '] := rfl

/-- **C6 amended**: the rendered cipher determines the original letters at
the granularity of the per-character token list (the stage before the
tokens are concatenated): for any generated mapping and any two sentences
made of alphabet letters and spaces, equal token lists force equal
sentences.  The concatenated string itself is ambiguous because multi-digit
numbers are juxtaposed with no separator (see the counterexample). -/
theorem cipher_units_injective (rand : ℕ → ℚ) (hr : ∀ k, 0 ≤ rand k ∧ rand k < 1)
    (s1 s2 : List Char)
    (h1 : ∀ c ∈ s1, c ∈ turkishAlphabet ∨ c = ' ')
    (h2 : ∀ c ∈ s2, c ∈ turkishAlphabet ∨ c = ' ')
    (heq : cipherUnits s1 (generateCipherMapping rand) =
      cipherUnits s2 (generateCipherMapping rand)) :
    s1 = s2 := by
  have hkeys := generateCipherMapping_keys rand hr
  have hvals := generateCipherMapping_values_perm rand hr
  have hnd : ((generateCipherMapping rand).map Prod.snd).Nodup :=
    hvals.nodup_iff.mpr (by decide)
  have htot : ∀ c ∈ turkishAlphabet, ∃ n, (generateCipherMapping rand).lookup c = some n :=
    fun c hc => lookup_exists_of_mem_keys _ c (hkeys ▸ hc)
  have hval : ∀ (c : Char) (n : ℕ), (generateCipherMapping rand).lookup c = some n →
      n ∈ List.range' 1 29 :=
    fun c n h => hvals.mem_iff.mp (lookup_mem_values _ c n h)
  revert h1 h2 heq
  induction s1 generalizing s2 with
  | nil =>
    intro h1 h2 heq
    cases s2 with
    | nil => rfl
    | cons c2 t2 => exact absurd heq (by simp [cipherUnits])
  | cons c1 t1 ih =>
    intro h1 h2 heq
    cases s2 with
    | nil => exact absurd heq (by simp [cipherUnits])
    | cons c2 t2 =>
      simp only [cipherUnits, List.map_cons, List.cons.injEq] at heq
      obtain ⟨hhd, htl⟩ := heq
      have hc1 := h1 c1 (List.mem_cons_self c1 t1)
      have hc2 := h2 c2 (List.mem_cons_self c2 t2)
      have hhead : c1 = c2 := by
        rcases hc1 with hc1 | hc1 <;> rcases hc2 with hc2 | hc2
        · rw [alpha_jsUpper_fixed c1 hc1, alpha_jsUpper_fixed c2 hc2] at hhd
          obtain ⟨n1, hn1⟩ := htot c1 hc1
          obtain ⟨n2, hn2⟩ := htot c2 hc2
          have r1 := hval c1 n1 hn1
          have r2 := hval c2 n2 hn2
          rw [cipherUnit_alpha _ c1 n1 hc1 hn1 (range1_29_bounds n1 r1).1,
            cipherUnit_alpha _ c2 n2 hc2 hn2 (range1_29_bounds n2 r2).1] at hhd
          have hn12 : n1 = n2 := digitsOf_injOn n1 r1 n2 r2 hhd
          subst hn12
          exact lookup_inj_of_nodup_values _ hnd c1 c2 n1 hn1 hn2
        · subst hc2
          rw [alpha_jsUpper_fixed c1 hc1, show jsUpperChar ' ' = ' ' from rfl,
            cipherUnit_space] at hhd
          obtain ⟨n1, hn1⟩ := htot c1 hc1
          have r1 := hval c1 n1 hn1
          rw [cipherUnit_alpha _ c1 n1 hc1 hn1 (range1_29_bounds n1 r1).1] at hhd
          exact absurd hhd (digitsOf_ne_space n1 r1)
        · subst hc1
          rw [alpha_jsUpper_fixed c2 hc2, show jsUpperChar ' ' = ' ' from rfl,
            cipherUnit_space] at hhd
          obtain ⟨n2, hn2⟩ := htot c2 hc2
          have r2 := hval c2 n2 hn2
          rw [cipherUnit_alpha _ c2 n2 hc2 hn2 (range1_29_bounds n2 r2).1] at hhd
          exact absurd hhd.symm (digitsOf_ne_space n2 r2)
        · rw [hc1, hc2]
      have htail : t1 = t2 := by
        apply ih t2 (fun c hc => h1 c (List.mem_cons_of_mem c1 hc))
          (fun c hc => h2 c (List.mem_cons_of_mem c2 hc))
        exact htl
      rw [hhead, htail]

/-- Witness for `cipher_units_injective`: the hypotheses are satisfiable,
e.g. with the all-zeros draws and the sentence `"A"` on both sides. -/
theorem cipher_units_injective_witness :
    (∀ k, 0 ≤ rand0 k ∧ rand0 k < 1) ∧
    (∀ c ∈ ['A'], c ∈ turkishAlphabet ∨ c = ' ') ∧
    cipherUnits ['A'] (generateCipherMapping rand0) =
      cipherUnits ['A'] (generateCipherMapping rand0) ∧
    (['A'] : List Char) = ['A'] := by
  have hr : ∀ k, 0 ≤ rand0 k ∧ rand0 k < 1 := fun k => ⟨le_refl 0, by norm_num [rand0]⟩
  have hmem : ∀ c ∈ ['A'], c ∈ turkishAlphabet ∨ c = ' ' := by decide
  exact ⟨hr, hmem, rfl,
    cipher_units_injective rand0 hr ['A'] ['A'] hmem hmem rfl⟩

/-! ### C4: reveal planner invariants — character and word bookkeeping -/

theorem char_toNat_ofNat (n : ℕ) (h : n < 55296) : (Char.ofNat n).toNat = n := by
  unfold Char.ofNat
  rw [dif_pos (Or.inl h)]
  rfl

theorem isKept_of_toNat_ge (c : Char) (h : 64 ≤ c.toNat) : isKeptChar c = true := by
  have hne : ¬(c = ' ' ∨ c = '\'' ∨ c = '.' ∨ c = ',' ∨ c = '!' ∨ c = '?' ∨ c = ':'
      ∨ c = ';' ∨ c = '-') := by
    rintro (rfl | rfl | rfl | rfl | rfl | rfl | rfl | rfl | rfl) <;>
      exact absurd h (by decide)
  simp [isKeptChar, hne]

theorem isKept_jsUpper (c : Char) : isKeptChar (jsUpperChar c) = isKeptChar c := by
  unfold jsUpperChar
  split_ifs with h1 h2 h3 h4 h5 h6 h7
  · obtain ⟨ha, hz⟩ := h1
    have ha9 : 97 ≤ c.toNat := by simpa using Char.le_def.mp ha
    have hz9 : c.toNat ≤ 122 := by simpa using Char.le_def.mp hz
    have hv : (Char.ofNat (c.toNat - 32)).toNat = c.toNat - 32 :=
      char_toNat_ofNat _ (by omega)
    have h64 : 64 ≤ (Char.ofNat (c.toNat - 32)).toNat := by
      rw [hv]
      omega
    rw [isKept_of_toNat_ge _ h64, isKept_of_toNat_ge c (by omega)]
  · subst h2; decide
  · subst h3; decide
  · subst h4; decide
  · subst h5; decide
  · subst h6; decide
  · subst h7; decide
  · rfl

theorem isKept_trUpper (c : Char) : isKeptChar (trUpperChar c) = isKeptChar c := by
  unfold trUpperChar
  split_ifs with h
  · subst h; decide
  · exact isKept_jsUpper c

theorem wordLettersUpper_length (w : List Char) :
    (wordLettersUpper w).length = (wordLetters w).length := by
  unfold wordLettersUpper wordLetters
  rw [List.filter_map, List.length_map]
  congr 1
  exact List.filter_congr fun x _ => isKept_jsUpper x

theorem sentenceLetters_length (s : List Char) :
    (sentenceLetters s).length = (s.filter isKeptChar).length := by
  unfold sentenceLetters
  rw [List.filter_map, List.length_map]
  congr 1
  exact List.filter_congr fun x _ => isKept_trUpper x

theorem splitOnSpace_ne_nil (s : List Char) : splitOnSpace s ≠ [] := by
  cases s with
  | nil => simp [splitOnSpace]
  | cons c rest =>
    rw [splitOnSpace]
    by_cases hc : c = ' '
    · rw [if_pos hc]
      simp
    · rw [if_neg hc]
      cases h : splitOnSpace rest with
      | nil => simp
      | cons w ws => simp

theorem splitOnSpace_flatten_filter (s : List Char) :
    ((splitOnSpace s).map fun w => w.filter isKeptChar).flatten = s.filter isKeptChar := by
  induction s with
  | nil => rfl
  | cons c rest ih =>
    rw [splitOnSpace]
    by_cases hc : c = ' '
    · rw [if_pos hc]
      subst hc
      simpa using ih
    · rw [if_neg hc]
      cases h : splitOnSpace rest with
      | nil => exact absurd h (splitOnSpace_ne_nil rest)
      | cons w ws =>
        rw [h] at ih
        simp only [List.map_cons, List.flatten_cons] at ih ⊢
        rw [List.filter_cons, List.filter_cons]
        by_cases hk : isKeptChar c
        · rw [if_pos hk, if_pos hk, List.cons_append, ih]
        · rw [if_neg hk, if_neg hk, ih]

theorem splitOnSpace_mem_sub (s : List Char) :
    ∀ w ∈ splitOnSpace s, (∀ c ∈ w, c ∈ s) ∧ ' ' ∉ w := by
  induction s with
  | nil =>
    intro w hw
    have : w = [] := by simpa [splitOnSpace] using hw
    subst this
    simp
  | cons c rest ih =>
    intro w hw
    rw [splitOnSpace] at hw
    by_cases hc : c = ' '
    · rw [if_pos hc] at hw
      rcases List.mem_cons.mp hw with rfl | hw'
      · simp
      · obtain ⟨h1, h2⟩ := ih w hw'
        exact ⟨fun x hx => List.mem_cons_of_mem c (h1 x hx), h2⟩
    · rw [if_neg hc] at hw
      cases h : splitOnSpace rest with
      | nil => exact absurd h (splitOnSpace_ne_nil rest)
      | cons w0 ws =>
        rw [h] at hw
        rcases List.mem_cons.mp hw with rfl | hw'
        · have h0 := ih w0 (h ▸ List.mem_cons_self w0 ws)
          constructor
          · intro x hx
            rcases List.mem_cons.mp hx with rfl | hx'
            · exact List.mem_cons_self x rest
            · exact List.mem_cons_of_mem c (h0.1 x hx')
          · intro hsp
            rcases List.mem_cons.mp hsp with heq | hsp'
            · exact hc heq.symm
            · exact h0.2 hsp'
        · have h0 := ih w (h ▸ List.mem_cons_of_mem w0 hw')
          exact ⟨fun x hx => List.mem_cons_of_mem c (h0.1 x hx), h0.2⟩

theorem segment_empty_of_dropped (s : List Char)
    (hws : ∀ c ∈ s, isJsWhitespaceChar c = true → c = ' ')
    (w : List Char) (hw : w ∈ splitOnSpace s)
    (hdrop : (w.any fun c => !(isJsWhitespaceChar c)) = false) : w = [] := by
  cases hwc : w with
  | nil => rfl
  | cons c t =>
    exfalso
    subst hwc
    have hall : ∀ x ∈ c :: t, isJsWhitespaceChar x = true := by
      intro x hx
      by_contra hfx
      have hany : ((c :: t).any fun d => !(isJsWhitespaceChar d)) = true :=
        List.any_eq_true.mpr ⟨x, hx, by simp [hfx]⟩
      rw [hdrop] at hany
      exact Bool.false_ne_true hany
    have hcs : c ∈ s := (splitOnSpace_mem_sub s _ hw).1 c (List.mem_cons_self c t)
    have hcsp : c = ' ' := hws c hcs (hall c (List.mem_cons_self c t))
    exact (splitOnSpace_mem_sub s _ hw).2 (hcsp ▸ List.mem_cons_self c t)

theorem sum_filter_trim (l : List (List Char))
    (h : ∀ w ∈ l, (w.any fun c => !(isJsWhitespaceChar c)) = false → w = []) :
    ((l.filter fun w => w.any fun c => !(isJsWhitespaceChar c)).map
        fun w => (wordLetters w).length).sum
      = (l.map fun w => (wordLetters w).length).sum := by
  induction l with
  | nil => rfl
  | cons w ws ih =>
    rw [List.filter_cons]
    by_cases hw : (w.any fun c => !(isJsWhitespaceChar c)) = true
    · rw [if_pos hw]
      simp only [List.map_cons, List.sum_cons]
      rw [ih fun x hx hfx => h x (List.mem_cons_of_mem w hx) hfx]
    · have hw0 : w = [] := h w (List.mem_cons_self w ws) (by simpa using hw)
      subst hw0
      rw [if_neg hw]
      simp only [List.map_cons, List.sum_cons]
      rw [ih fun x hx hfx => h x (List.mem_cons_of_mem _ hx) hfx]
      simp [wordLetters]

theorem words_letter_sum (s : List Char)
    (hws : ∀ c ∈ s, isJsWhitespaceChar c = true → c = ' ') :
    ((sentenceWords s).map fun w => (wordLetters w).length).sum
      = (sentenceLetters s).length := by
  rw [sentenceLetters_length]
  unfold sentenceWords
  rw [sum_filter_trim _ fun w hw hfx => segment_empty_of_dropped s hws w hw hfx]
  rw [← splitOnSpace_flatten_filter s, List.length_flatten]
  simp only [wordLetters, List.map_map]
  rfl

/-! ### C4: offsets and globalization -/

theorem offsetBefore_zero (ws : List (List Char)) : offsetBefore ws 0 = 0 := rfl

theorem offsetBefore_cons_succ (w : List Char) (ws : List (List Char)) (k : ℕ) :
    offsetBefore (w :: ws) (k + 1) = (wordLetters w).length + offsetBefore ws k := by
  unfold offsetBefore
  simp

theorem offsetBefore_succ (ws : List (List Char)) (k : ℕ) (hk : k < ws.length) :
    offsetBefore ws (k + 1)
      = offsetBefore ws k + (wordLetters (ws.get ⟨k, hk⟩)).length := by
  unfold offsetBefore
  rw [List.take_succ, List.getElem?_eq_getElem hk, List.map_append, List.sum_append]
  simp

theorem offsetBefore_mono (ws : List (List Char)) (i k : ℕ) (hik : i ≤ k)
    (hk : k ≤ ws.length) : offsetBefore ws i ≤ offsetBefore ws k := by
  induction k with
  | zero =>
    have : i = 0 := by omega
    subst this
    exact le_refl _
  | succ m ih =>
    rcases Nat.lt_or_ge i (m + 1) with h | h
    · have h1 : offsetBefore ws i ≤ offsetBefore ws m := ih (by omega) (by omega)
      have h2 := offsetBefore_succ ws m (by omega)
      omega
    · have : i = m + 1 := by omega
      subst this
      exact le_refl _

theorem offsetBefore_length (ws : List (List Char)) :
    offsetBefore ws ws.length = (ws.map fun w => (wordLetters w).length).sum := by
  unfold offsetBefore
  rw [List.take_length]

theorem span_interval (ws : List (List Char)) (j k : ℕ) (hj : j < ws.length)
    (hk : k < ws.length) (p q : ℕ) (hp : p < (wordLetters (ws.get ⟨k, hk⟩)).length)
    (hq : q < (wordLetters (ws.get ⟨j, hj⟩)).length)
    (heq : offsetBefore ws j + q = offsetBefore ws k + p) : j = k := by
  by_contra hne
  rcases Nat.lt_or_ge j k with h | h
  · have h1 := offsetBefore_succ ws j hj
    have h2 := offsetBefore_mono ws (j + 1) k (by omega) (by omega)
    omega
  · have hkj : k < j := by omega
    have h1 := offsetBefore_succ ws k hk
    have h2 := offsetBefore_mono ws (k + 1) j (by omega) (by omega)
    omega

theorem mem_globalizePositions (assoc : List (List Char × Finset ℕ)) :
    ∀ (ws : List (List Char)) (g x : ℕ),
      x ∈ globalizePositions assoc ws g ↔
      ∃ (k : ℕ) (hk : k < ws.length) (p : ℕ),
        p ∈ lookupSet assoc (ws.get ⟨k, hk⟩) ∧ x = g + offsetBefore ws k + p := by
  intro ws
  induction ws with
  | nil =>
    intro g x
    rw [globalizePositions]
    simp
  | cons w ws ih =>
    intro g x
    rw [globalizePositions]
    have hcontrib :
        (match assoc.lookup w with
          | some ps => ps.image fun p => g + p
          | none => (∅ : Finset ℕ)) = (lookupSet assoc w).image fun p => g + p := by
      cases h : assoc.lookup w with
      | some ps => simp [lookupSet, h]
      | none => simp [lookupSet, h]
    rw [hcontrib, Finset.mem_union, Finset.mem_image,
      ih (g + (wordLetters w).length) x]
    constructor
    · rintro (⟨p, hp, rfl⟩ | ⟨k, hk, p, hp, rfl⟩)
      · exact ⟨0, by simp, p, hp, by simp [offsetBefore]⟩
      · refine ⟨k + 1, by simpa using Nat.succ_lt_succ hk, p, hp, ?_⟩
        rw [offsetBefore_cons_succ]
        ring
    · rintro ⟨k, hk, p, hp, rfl⟩
      cases k with
      | zero =>
        left
        exact ⟨p, hp, by simp [offsetBefore]⟩
      | succ m =>
        right
        refine ⟨m, by simpa using hk, p, hp, ?_⟩
        rw [offsetBefore_cons_succ]
        ring

/-! ### C4: the per-word selection bound -/

theorem jsDedupAux_subset (seen : List ℕ) (l : List ℕ) :
    ∀ x ∈ jsDedupAux seen l, x ∈ l := by
  induction l generalizing seen with
  | nil => intro x hx; simp [jsDedupAux] at hx
  | cons a t ih =>
    intro x hx
    rw [jsDedupAux] at hx
    by_cases ha : a ∈ seen
    · rw [if_pos ha] at hx
      exact List.mem_cons_of_mem a (ih seen x hx)
    · rw [if_neg ha] at hx
      rcases List.mem_cons.mp hx with rfl | hx'
      · exact List.mem_cons_self x t
      · exact List.mem_cons_of_mem a (ih (a :: seen) x hx')

theorem take_bound (src : List ℕ) (L n len : ℕ) (h : ∀ x ∈ src, x < len) :
    (∀ p ∈ src.take (min L n), p < len) ∧
    (src.take (min L n)).length ≤ L := by
  constructor
  · intro p hp
    exact h p (List.take_subset _ _ hp)
  · rw [List.length_take]
    omega

theorem selectWordPositions_bound (settings : GameSettings) (difficulty : Difficulty)
    (bern : ℚ) (shuf : List ℕ → List ℕ) (word : List Char)
    (hshuf : ∀ l, (shuf l).Perm l) (hlen : 0 < (wordLettersUpper word).length) :
    (∀ p ∈ selectWordPositions settings difficulty bern shuf word,
      p < (wordLettersUpper word).length) ∧
    (selectWordPositions settings difficulty bern shuf word).length ≤
      (getDifficultySettings settings difficulty).letterRevealLimits.get
        (getWordLengthCategory (wordLettersUpper word).length) := by
  have hshufmem : ∀ x ∈ shuf (List.range (wordLettersUpper word).length),
      x < (wordLettersUpper word).length := by
    intro x hx
    have := (hshuf (List.range (wordLettersUpper word).length)).mem_iff.mp hx
    exact List.mem_range.mp this
  have hprio : ∀ x ∈ jsDedup
      ([0, (wordLettersUpper word).length - 1] ++
        (List.range (wordLettersUpper word).length).filter (fun i =>
          charAtIn (wordLettersUpper word) i settings.gameMechanics.commonLetters) ++
        (List.range (wordLettersUpper word).length).filter (fun i =>
          !(charAtIn (wordLettersUpper word) i settings.gameMechanics.commonLetters))),
      x < (wordLettersUpper word).length := by
    intro x hx
    have hx' := jsDedupAux_subset [] _ x hx
    rcases List.mem_append.mp hx' with hx2 | hx2
    · rcases List.mem_append.mp hx2 with hx3 | hx3
      · rcases List.mem_cons.mp hx3 with rfl | hx4
        · exact hlen
        · have : x = (wordLettersUpper word).length - 1 := by simpa using hx4
          omega
      · exact List.mem_range.mp (List.mem_of_mem_filter hx3)
    · exact List.mem_range.mp (List.mem_of_mem_filter hx2)
  unfold selectWordPositions
  cases difficulty with
  | easy =>
    simp only
    split_ifs with hpos hedge
    · exact take_bound _ _ _ _ hprio
    · exact take_bound _ _ _ _ hshufmem
    · refine ⟨fun p hp => absurd hp (by simp), ?_⟩
      simp only [List.length_nil]
      exact Nat.zero_le _
  | medium =>
    simp only
    have hLmax :
        (if (wordLettersUpper word).length ≤ 4 then
          if bern < (getDifficultySettings settings .medium).revealProbability then
            min 1 ((getDifficultySettings settings .medium).letterRevealLimits.get
              (getWordLengthCategory (wordLettersUpper word).length))
          else 0
        else (getDifficultySettings settings .medium).letterRevealLimits.get
          (getWordLengthCategory (wordLettersUpper word).length)) ≤
        (getDifficultySettings settings .medium).letterRevealLimits.get
          (getWordLengthCategory (wordLettersUpper word).length) := by
      split_ifs
      · exact min_le_right _ _
      · exact Nat.zero_le _
      · exact le_refl _
    revert hLmax
    generalize (if (wordLettersUpper word).length ≤ 4 then
          if bern < (getDifficultySettings settings .medium).revealProbability then
            min 1 ((getDifficultySettings settings .medium).letterRevealLimits.get
              (getWordLengthCategory (wordLettersUpper word).length))
          else 0
        else (getDifficultySettings settings .medium).letterRevealLimits.get
          (getWordLengthCategory (wordLettersUpper word).length)) = L
    intro hLmax
    by_cases hpos : 0 < L
    · rw [if_pos hpos]
      exact ⟨(take_bound _ _ _ _ hshufmem).1, le_trans (take_bound _ _ _ _ hshufmem).2 hLmax⟩
    · rw [if_neg hpos]
      refine ⟨fun p hp => absurd hp (by simp), ?_⟩
      simp only [List.length_nil]
      exact Nat.zero_le _
  | hard =>
    simp only
    have hLmax :
        (if (wordLettersUpper word).length ≤ 4 then
          if bern < (getDifficultySettings settings .hard).revealProbability then
            min 1 ((getDifficultySettings settings .hard).letterRevealLimits.get
              (getWordLengthCategory (wordLettersUpper word).length))
          else 0
        else (getDifficultySettings settings .hard).letterRevealLimits.get
          (getWordLengthCategory (wordLettersUpper word).length)) ≤
        (getDifficultySettings settings .hard).letterRevealLimits.get
          (getWordLengthCategory (wordLettersUpper word).length) := by
      split_ifs
      · exact min_le_right _ _
      · exact Nat.zero_le _
      · exact le_refl _
    revert hLmax
    generalize (if (wordLettersUpper word).length ≤ 4 then
          if bern < (getDifficultySettings settings .hard).revealProbability then
            min 1 ((getDifficultySettings settings .hard).letterRevealLimits.get
              (getWordLengthCategory (wordLettersUpper word).length))
          else 0
        else (getDifficultySettings settings .hard).letterRevealLimits.get
          (getWordLengthCategory (wordLettersUpper word).length)) = L
    intro hLmax
    by_cases hpos : 0 < L
    · rw [if_pos hpos]
      exact ⟨(take_bound _ _ _ _ hshufmem).1, le_trans (take_bound _ _ _ _ hshufmem).2 hLmax⟩
    · rw [if_neg hpos]
      refine ⟨fun p hp => absurd hp (by simp), ?_⟩
      simp only [List.length_nil]
      exact Nat.zero_le _

/-! ### C4: the word-keyed reveal map -/

theorem mem_keys_of_lookup {α β : Type} [BEq α] [LawfulBEq α]
    (ps : List (α × β)) (a : α) (b : β) (h : ps.lookup a = some b) :
    a ∈ ps.map Prod.fst :=
  List.mem_map_of_mem Prod.fst (lookup_pair_mem ps a b h)

theorem addWordPositions_lookup_self (acc : List (List Char × Finset ℕ))
    (w : List Char) (ps : List ℕ) (hw : w ∉ acc.map Prod.fst) :
    (addWordPositions acc w ps).lookup w = some ps.toFinset := by
  induction acc with
  | nil =>
    rw [addWordPositions, List.lookup]
    simp
  | cons pr rest ih =>
    obtain ⟨k, s⟩ := pr
    simp only [List.map_cons, List.mem_cons] at hw
    push_neg at hw
    rw [addWordPositions, if_neg fun h => hw.1 h.symm, List.lookup]
    have hwk : (w == k) = false := by simpa using hw.1
    rw [hwk]
    exact ih hw.2

theorem addWordPositions_lookup_ne (acc : List (List Char × Finset ℕ))
    (w : List Char) (ps : List ℕ) (w' : List Char) (hne : w' ≠ w) :
    (addWordPositions acc w ps).lookup w' = acc.lookup w' := by
  induction acc with
  | nil =>
    rw [addWordPositions, List.lookup, List.lookup]
    have : (w' == w) = false := by simpa using hne
    rw [this]
    rfl
  | cons pr rest ih =>
    obtain ⟨k, s⟩ := pr
    rw [addWordPositions]
    by_cases hk : k = w
    · rw [if_pos hk, List.lookup, List.lookup]
      have : (w' == k) = false := by
        subst hk
        simpa using hne
      rw [this]
    · rw [if_neg hk, List.lookup, List.lookup]
      cases hab : (w' == k) with
      | true => rfl
      | false => exact ih

theorem addWordPositions_keys_ne (acc : List (List Char × Finset ℕ))
    (w : List Char) (ps : List ℕ) (w' : List Char)
    (h1 : w' ∉ acc.map Prod.fst) (h2 : w' ≠ w) :
    w' ∉ (addWordPositions acc w ps).map Prod.fst := by
  intro hmem
  obtain ⟨x, hx⟩ := lookup_exists_of_mem_keys _ _ hmem
  rw [addWordPositions_lookup_ne acc w ps w' h2] at hx
  exact h1 (mem_keys_of_lookup _ _ _ hx)

theorem addWordPositions_inv (acc : List (List Char × Finset ℕ))
    (w : List Char) (ps : List ℕ)
    (hacc : ∀ pr ∈ acc, ∀ p ∈ pr.2, p < (wordLetters pr.1).length)
    (hps : ∀ p ∈ ps, p < (wordLetters w).length) :
    ∀ pr ∈ addWordPositions acc w ps, ∀ p ∈ pr.2, p < (wordLetters pr.1).length := by
  induction acc with
  | nil =>
    intro pr hpr
    rw [addWordPositions] at hpr
    have : pr = (w, ps.toFinset) := by simpa using hpr
    subst this
    intro p hp
    exact hps p (List.mem_toFinset.mp hp)
  | cons hd rest ih =>
    obtain ⟨k, s⟩ := hd
    intro pr hpr
    rw [addWordPositions] at hpr
    by_cases hk : k = w
    · rw [if_pos hk] at hpr
      rcases List.mem_cons.mp hpr with rfl | hpr'
      · intro p hp
        rcases Finset.mem_union.mp hp with hp' | hp'
        · exact hacc (k, s) (List.mem_cons_self _ _) p hp'
        · subst hk
          exact hps p (List.mem_toFinset.mp hp')
      · exact hacc pr (List.mem_cons_of_mem _ hpr')
    · rw [if_neg hk] at hpr
      rcases List.mem_cons.mp hpr with rfl | hpr'
      · exact hacc (k, s) (List.mem_cons_self _ _)
      · exact ih (fun q hq => hacc q (List.mem_cons_of_mem _ hq)) pr hpr'

theorem buildWordReveals_inv (settings : GameSettings) (difficulty : Difficulty)
    (bern : ℕ → ℚ) (shuf : ℕ → List ℕ → List ℕ)
    (hshuf : ∀ k l, (shuf k l).Perm l) :
    ∀ (ws : List (List Char)) (k0 : ℕ) (acc : List (List Char × Finset ℕ)),
      (∀ pr ∈ acc, ∀ p ∈ pr.2, p < (wordLetters pr.1).length) →
      ∀ pr ∈ buildWordReveals settings difficulty bern shuf ws k0 acc,
        ∀ p ∈ pr.2, p < (wordLetters pr.1).length := by
  intro ws
  induction ws with
  | nil =>
    intro k0 acc hacc
    exact hacc
  | cons w ws ih =>
    intro k0 acc hacc
    rw [buildWordReveals]
    by_cases hlen : (wordLettersUpper w).length = 0
    · rw [if_pos hlen]
      exact ih (k0 + 1) acc hacc
    · rw [if_neg hlen]
      apply ih
      apply addWordPositions_inv _ _ _ hacc
      intro p hp
      have hb := (selectWordPositions_bound settings difficulty (bern k0) (shuf k0) w
        (hshuf k0) (by omega)).1 p hp
      rw [wordLettersUpper_length] at hb
      exact hb

theorem buildWordReveals_lookup_stable (settings : GameSettings) (difficulty : Difficulty)
    (bern : ℕ → ℚ) (shuf : ℕ → List ℕ → List ℕ) :
    ∀ (ws : List (List Char)) (k0 : ℕ) (acc : List (List Char × Finset ℕ))
      (w : List Char), w ∉ ws →
      (buildWordReveals settings difficulty bern shuf ws k0 acc).lookup w = acc.lookup w := by
  intro ws
  induction ws with
  | nil =>
    intro k0 acc w _
    rfl
  | cons w0 ws ih =>
    intro k0 acc w hw
    rw [buildWordReveals]
    have hne : w ≠ w0 := fun h => hw (h ▸ List.mem_cons_self _ _)
    have hw' : w ∉ ws := fun h => hw (List.mem_cons_of_mem _ h)
    by_cases hlen : (wordLettersUpper w0).length = 0
    · rw [if_pos hlen]
      exact ih _ _ w hw'
    · rw [if_neg hlen]
      rw [ih _ _ w hw']
      exact addWordPositions_lookup_ne acc w0 _ w hne

theorem buildWordReveals_lookup_nodup (settings : GameSettings) (difficulty : Difficulty)
    (bern : ℕ → ℚ) (shuf : ℕ → List ℕ → List ℕ) :
    ∀ (ws : List (List Char)) (k0 : ℕ) (acc : List (List Char × Finset ℕ))
      (k : ℕ) (hk : k < ws.length), ws.Nodup →
      ws.get ⟨k, hk⟩ ∉ acc.map Prod.fst →
      lookupSet (buildWordReveals settings difficulty bern shuf ws k0 acc)
          (ws.get ⟨k, hk⟩) =
        if (wordLettersUpper (ws.get ⟨k, hk⟩)).length = 0 then ∅
        else (selectWordPositions settings difficulty (bern (k0 + k)) (shuf (k0 + k))
          (ws.get ⟨k, hk⟩)).toFinset := by
  intro ws
  induction ws with
  | nil =>
    intro k0 acc k hk
    exact absurd hk (by simp)
  | cons w0 ws ih =>
    intro k0 acc k hk hnd hkeys
    rw [List.nodup_cons] at hnd
    cases k with
    | zero =>
      rw [show (w0 :: ws).get ⟨0, hk⟩ = w0 from rfl]
      rw [buildWordReveals]
      by_cases hlen : (wordLettersUpper w0).length = 0
      · rw [if_pos hlen]
        rw [lookupSet, buildWordReveals_lookup_stable _ _ _ _ ws (k0 + 1) acc w0 hnd.1]
        have hnone : acc.lookup w0 = none := by
          cases h : acc.lookup w0 with
          | none => rfl
          | some x => exact absurd (mem_keys_of_lookup acc w0 x h) hkeys
        rw [hnone]
        rw [if_pos hlen]
        rfl
      · rw [if_neg hlen]
        rw [lookupSet, buildWordReveals_lookup_stable _ _ _ _ ws (k0 + 1) _ w0 hnd.1]
        rw [addWordPositions_lookup_self acc w0 _ hkeys]
        rw [if_neg hlen]
        simp
    | succ m =>
      have hm : m < ws.length := by simpa using hk
      rw [show (w0 :: ws).get ⟨m + 1, hk⟩ = ws.get ⟨m, hm⟩ from rfl]
      rw [buildWordReveals]
      have hne : ws.get ⟨m, hm⟩ ≠ w0 := by
        intro h
        exact hnd.1 (h ▸ List.get_mem ws m hm)
      have harith : k0 + 1 + m = k0 + (m + 1) := by omega
      by_cases hlen : (wordLettersUpper w0).length = 0
      · rw [if_pos hlen]
        have := ih (k0 + 1) acc m hm hnd.2 hkeys
        rw [harith] at this
        exact this
      · rw [if_neg hlen]
        have hkeys' : ws.get ⟨m, hm⟩ ∉
            (addWordPositions acc w0 (selectWordPositions settings difficulty (bern k0)
              (shuf k0) w0)).map Prod.fst :=
          addWordPositions_keys_ne acc w0 _ _ hkeys hne
        have := ih (k0 + 1) _ m hm hnd.2 hkeys'
        rw [harith] at this
        exact this

/-! ### C4: assembling the reveal invariants -/

theorem lookupSet_bound (assoc : List (List Char × Finset ℕ))
    (hinv : ∀ pr ∈ assoc, ∀ p ∈ pr.2, p < (wordLetters pr.1).length)
    (w : List Char) (p : ℕ) (hp : p ∈ lookupSet assoc w) :
    p < (wordLetters w).length := by
  rw [lookupSet] at hp
  cases h : assoc.lookup w with
  | none =>
    rw [h] at hp
    simp at hp
  | some S =>
    rw [h] at hp
    exact hinv (w, S) (lookup_pair_mem assoc w S h) p hp

theorem spanRevealCount_globalize (assoc : List (List Char × Finset ℕ))
    (ws : List (List Char))
    (hinv : ∀ pr ∈ assoc, ∀ p ∈ pr.2, p < (wordLetters pr.1).length)
    (k : ℕ) (hk : k < ws.length) :
    spanRevealCount (globalizePositions assoc ws 0) (offsetBefore ws k)
      (wordLetters (ws.get ⟨k, hk⟩)).length
      = (lookupSet assoc (ws.get ⟨k, hk⟩)).card := by
  unfold spanRevealCount
  congr 1
  apply Finset.ext
  intro p
  rw [Finset.mem_filter, Finset.mem_range]
  constructor
  · rintro ⟨hplen, hpin⟩
    rw [mem_globalizePositions] at hpin
    obtain ⟨j, hj, q, hq, heq⟩ := hpin
    rw [zero_add] at heq
    have hqlen : q < (wordLetters (ws.get ⟨j, hj⟩)).length :=
      lookupSet_bound assoc hinv _ q hq
    have hjk : j = k := span_interval ws j k hj hk p q hplen hqlen heq.symm
    subst hjk
    have hqp : q = p := by omega
    subst hqp
    exact hq
  · intro hp
    have hplen : p < (wordLetters (ws.get ⟨k, hk⟩)).length :=
      lookupSet_bound assoc hinv _ p hp
    refine ⟨hplen, ?_⟩
    rw [mem_globalizePositions]
    exact ⟨k, hk, p, hp, by omega⟩

/-- **C4 amended**: for every sentence (whose only whitespace is the space
character), difficulty, configuration and random draws — with the
comparator shuffles producing permutations, as a JavaScript sort always
does — the `initialRevealedPositions` set produced at game initialization
is a subset of `[0, totalLetterCount)`; and *provided no word text occurs
twice in the sentence*, the number of each word's positions contained in
`initialRevealedPositions` is at most the `maxLettersFromWord` limit of
that word's length bucket.  (For sentences with a repeated word text the
per-word bound can fail, because the tracker is keyed by word text — see
the counterexample.) -/
theorem initializeGame_reveal_invariants (settings : GameSettings) (sentence : List Char)
    (difficulty : Difficulty) (mapping : List (Char × ℕ)) (bern : ℕ → ℚ)
    (shuf : ℕ → List ℕ → List ℕ) (now : ℕ)
    (hshuf : ∀ k l, (shuf k l).Perm l)
    (hws : ∀ c ∈ sentence, isJsWhitespaceChar c = true → c = ' ') :
    (initializeGameCore settings sentence difficulty mapping bern shuf
        now).initialRevealedPositions
      ⊆ Finset.range (sentenceLetters sentence).length ∧
    ((sentenceWords sentence).Nodup →
      ∀ (k : ℕ) (hk : k < (sentenceWords sentence).length),
        spanRevealCount
          (initializeGameCore settings sentence difficulty mapping bern shuf
            now).initialRevealedPositions
          (offsetBefore (sentenceWords sentence) k)
          (wordLetters ((sentenceWords sentence).get ⟨k, hk⟩)).length ≤
        (getDifficultySettings settings difficulty).letterRevealLimits.get
          (getWordLengthCategory
            (wordLettersUpper ((sentenceWords sentence).get ⟨k, hk⟩)).length)) := by
  have hinit : (initializeGameCore settings sentence difficulty mapping bern shuf
      now).initialRevealedPositions
      = globalizePositions
          (buildWordReveals settings difficulty bern shuf (sentenceWords sentence) 0 [])
          (sentenceWords sentence) 0 := rfl
  rw [hinit]
  have hinv : ∀ pr ∈ buildWordReveals settings difficulty bern shuf
      (sentenceWords sentence) 0 [], ∀ p ∈ pr.2, p < (wordLetters pr.1).length :=
    buildWordReveals_inv settings difficulty bern shuf hshuf (sentenceWords sentence) 0 []
      (by simp)
  constructor
  · intro x hx
    rw [mem_globalizePositions] at hx
    obtain ⟨j, hj, q, hq, rfl⟩ := hx
    rw [Finset.mem_range, zero_add]
    have hqlen := lookupSet_bound _ hinv _ q hq
    have hsucc := offsetBefore_succ (sentenceWords sentence) j hj
    have hmono := offsetBefore_mono (sentenceWords sentence) (j + 1)
      (sentenceWords sentence).length (by omega) (le_refl _)
    have htotal : offsetBefore (sentenceWords sentence) (sentenceWords sentence).length
        = (sentenceLetters sentence).length := by
      rw [offsetBefore_length]
      exact words_letter_sum sentence hws
    omega
  · intro hnd k hk
    rw [spanRevealCount_globalize _ (sentenceWords sentence) hinv k hk]
    rw [buildWordReveals_lookup_nodup settings difficulty bern shuf
      (sentenceWords sentence) 0 [] k hk hnd (by simp)]
    by_cases hlen : (wordLettersUpper ((sentenceWords sentence).get ⟨k, hk⟩)).length = 0
    · rw [if_pos hlen]
      simp
    · rw [if_neg hlen]
      calc (selectWordPositions settings difficulty (bern (0 + k)) (shuf (0 + k))
            ((sentenceWords sentence).get ⟨k, hk⟩)).toFinset.card
          ≤ (selectWordPositions settings difficulty (bern (0 + k)) (shuf (0 + k))
            ((sentenceWords sentence).get ⟨k, hk⟩)).length := List.toFinset_card_le _
        _ ≤ _ := (selectWordPositions_bound settings difficulty _ _ _
            (hshuf (0 + k)) (by omega)).2

/-- **C4 counterexample**: in the sentence `"ev ev"` the word text `"ev"`
occurs twice; at medium difficulty with the concrete configuration
`demoSettings` (short-word limit `1`) and concrete comparator-shuffle
outcomes (first occurrence keeps `[0,1]`, second reverses it), both letter
positions of the *first* occurrence end up initially revealed: its span
count is `2`, exceeding the bucket's `maxLettersFromWord = 1`. -/
theorem reveal_limit_counterexample :
    spanRevealCount (initializeGameCore demoSettings ['e', 'v', ' ', 'e', 'v'] .medium []
        demoBern demoShuf 0).initialRevealedPositions 0 2 = 2 ∧
    (getDifficultySettings demoSettings .medium).letterRevealLimits.get
      (getWordLengthCategory (wordLettersUpper ['e', 'v']).length) = 1 ∧
    offsetBefore (sentenceWords ['e', 'v', ' ', 'e', 'v']) 0 = 0 ∧
    (wordLetters (['e', 'v'] : List Char)).length = 2 ∧
    sentenceWords ['e', 'v', ' ', 'e', 'v'] = [['e', 'v'], ['e', 'v']] :=
  ⟨by decide, by decide, rfl, by decide, by decide⟩

/-- Witness for `initializeGame_reveal_invariants`: the hypotheses hold for
the demo configuration, the single-word sentence `"ev"` and the demo
draws. -/
theorem initializeGame_reveal_invariants_witness :
    (∀ k l, (demoShuf k l).Perm l) ∧
    (∀ c ∈ (['e', 'v'] : List Char), isJsWhitespaceChar c = true → c = ' ') ∧
    ((initializeGameCore demoSettings ['e', 'v'] .medium [] demoBern demoShuf
        0).initialRevealedPositions
      ⊆ Finset.range (sentenceLetters ['e', 'v']).length ∧
    ((sentenceWords ['e', 'v']).Nodup →
      ∀ (k : ℕ) (hk : k < (sentenceWords ['e', 'v']).length),
        spanRevealCount
          (initializeGameCore demoSettings ['e', 'v'] .medium [] demoBern demoShuf
            0).initialRevealedPositions
          (offsetBefore (sentenceWords ['e', 'v']) k)
          (wordLetters ((sentenceWords ['e', 'v']).get ⟨k, hk⟩)).length ≤
        (getDifficultySettings demoSettings .medium).letterRevealLimits.get
          (getWordLengthCategory
            (wordLettersUpper ((sentenceWords ['e', 'v']).get ⟨k, hk⟩)).length))) := by
  have hshuf : ∀ k l, (demoShuf k l).Perm l := by
    intro k l
    unfold demoShuf
    split_ifs
    · exact List.Perm.refl l
    · exact List.reverse_perm l
  have hws : ∀ c ∈ (['e', 'v'] : List Char), isJsWhitespaceChar c = true → c = ' ' := by
    decide
  exact ⟨hshuf, hws,
    initializeGame_reveal_invariants demoSettings ['e', 'v'] .medium [] demoBern demoShuf 0
      hshuf hws⟩

end CipherGame
